import Mathlib

/-!
Verification of simple-c-arraylist: a shallow embedding of `arraylist.c`.

The C container is a struct `arraylist_t` holding a heap buffer of `void *`
slots together with three `uint64_t` counters.  Every function of
`arraylist.c` is translated below as a Lean function on the struct, except the
diagnostic printer `arraylist_print_info`.

Conventions of the embedding:

* an element reference (`void *`) is a machine address, a `Nat`; `0` is `NULL`;
* the buffer `elements` is `none` when the pointer is `NULL`, and otherwise the
  list of the pointer-sized slots that the allocation holds;
* `uint64_t` values are `Nat`s, reduced modulo `2 ^ 64` where the C arithmetic
  can wrap;
* `exit(1)` is the outcome `Outcome.exit`, which records the struct as it was
  at the moment of the call; a slot access outside the allocation (or through
  a `NULL` buffer) is the outcome `Outcome.ub`;
* the struct pointer itself is taken to be non-null (the functions receive an
  `arraylist_t`), so the leading `if (!arraylist) exit(1);` guards never fire.
-/

namespace ArrayList

/-- An element reference (`void *`): a machine address, `0` being `NULL`. -/
abbrev Ptr := Nat

/-- Reduction of a natural number to the range of `uint64_t` / `size_t`. -/
def u64 (n : Nat) : Nat := n % 2 ^ 64

/-- Subtraction of `uint64_t` values `a - b` (wraps around below zero). -/
def u64_sub (a b : Nat) : Nat := (a + 2 ^ 64 - b % 2 ^ 64) % 2 ^ 64

/-- The value of `sizeof(element_size)`, i.e. `sizeof(uint64_t)`. -/
def sizeof_uint64 : Nat := 8

/-- The width in bytes of one slot of the buffer, `sizeof(void *)`, on the
64-bit targets where `size_t` is as wide as `uint64_t`. -/
def sizeof_ptr : Nat := 8

/-- The struct `arraylist_t` of `arraylist.h`. -/
structure arraylist_t where
  elements : Option (List Ptr)
  size : Nat
  capacity : Nat
  element_size : Nat
deriving DecidableEq

/-- How a call ends: a normal return with a value and the struct as the call
left it, a call of `exit(1)` with the struct as it was at that moment, or
undefined behaviour. -/
inductive Outcome (α : Type) where
  | ok (ret : α) (s : arraylist_t)
  | exit (s : arraylist_t)
  | ub
deriving DecidableEq

/-! ## The host allocator and slot accesses -/

/-- The call `malloc(bytes)`: `NULL` when the allocator fails, otherwise a
fresh block holding `bytes / sizeof(void *)` whole slots whose contents are
indeterminate (given by `junk`). -/
def malloc (heap_ok : Bool) (junk : Nat → Ptr) (bytes : Nat) : Option (List Ptr) :=
  if heap_ok then some ((List.range (bytes / sizeof_ptr)).map junk) else none

/-- The call `realloc(old, bytes)`: `NULL` when the allocator fails, otherwise
a block of `bytes / sizeof(void *)` whole slots that keeps the contents of the
old block up to the smaller of the two sizes; slots past the old block are
indeterminate (given by `junk`).  A request for zero bytes may answer either
way: `NULL`, or a block without slots. -/
def realloc (heap_ok : Bool) (junk : Nat → Ptr) (old : List Ptr) (bytes : Nat) :
    Option (List Ptr) :=
  if heap_ok then
    some (old.take (bytes / sizeof_ptr) ++
      (List.range (bytes / sizeof_ptr - old.length)).map (fun k => junk (old.length + k)))
  else none

/-- The read `elements[i]`; `none` when slot `i` lies outside the block. -/
def load (buf : List Ptr) (i : Nat) : Option Ptr := buf[i]?

/-- The write `elements[i] = v`; `none` when slot `i` lies outside the block. -/
def store (buf : List Ptr) (i : Nat) (v : Ptr) : Option (List Ptr) :=
  if i < buf.length then some (buf.set i v) else none

/-! ## The functions of `arraylist.c` -/

/-- The function `arraylist_init`.  The struct passed in is already allocated
and its fields hold whatever the caller left there. -/
def arraylist_init (heap_ok : Bool) (junk : Nat → Ptr) (arraylist : arraylist_t)
    (capacity element_size : Nat) : Outcome Unit :=
  if capacity < 0 ∨ element_size < 0 then Outcome.exit arraylist
  else if capacity = 0 ∨ element_size = 0 then Outcome.ok () arraylist
  else
    match malloc heap_ok junk (u64 (capacity * sizeof_uint64)) with
    | none => Outcome.exit { arraylist with elements := none }
    | some buf =>
      Outcome.ok ()
        { elements := some buf, size := 0, capacity := capacity, element_size := element_size }

/-- The function `arraylist_resize`. -/
def arraylist_resize (heap_ok : Bool) (junk : Nat → Ptr) (arraylist : arraylist_t)
    (newsize : Nat) : Outcome Unit :=
  match arraylist.elements with
  | none => Outcome.exit arraylist
  | some buf =>
    if newsize < arraylist.size then Outcome.exit arraylist
    else
      match realloc heap_ok junk buf (u64 (newsize * arraylist.element_size)) with
      | none => Outcome.exit { arraylist with elements := none }
      | some buf1 => Outcome.ok () { arraylist with elements := some buf1, capacity := newsize }

/-- The loop `for (i = size; i > index; i--) elements[i] = elements[i - 1];`
of `arraylist_add_at_index`.  The first argument after `index` counts the
iterations still to run, `i - index`, so the current `i` is `index + k + 1`. -/
def add_shift (index : Nat) : Nat → List Ptr → Option (List Ptr)
  | 0, buf => some buf
  | k + 1, buf =>
    match load buf (index + k) with
    | none => none
    | some v =>
      match store buf (index + k + 1) v with
      | none => none
      | some buf1 => add_shift index k buf1

/-- The function `arraylist_add_at_index`. -/
def arraylist_add_at_index (arraylist : arraylist_t) (element : Ptr) (index : Nat) :
    Outcome Unit :=
  if element = 0 then Outcome.exit arraylist
  else if index < 0 ∨ index > arraylist.size then Outcome.exit arraylist
  else if arraylist.size = arraylist.capacity then Outcome.exit arraylist
  else
    match arraylist.elements with
    | none => Outcome.ub
    | some buf =>
      match add_shift index (arraylist.size - index) buf with
      | none => Outcome.ub
      | some buf1 =>
        match store buf1 index element with
        | none => Outcome.ub
        | some buf2 =>
          Outcome.ok () { arraylist with elements := some buf2, size := u64 (arraylist.size + 1) }

/-- The loop `for (i = index; i < size - 1; i++) elements[i] = elements[i + 1];`
of `arraylist_remove_at_index`.  The first argument counts the iterations still
to run, `size - 1 - i`; the second is the current `i`. -/
def remove_shift : Nat → Nat → List Ptr → Option (List Ptr)
  | 0, _, buf => some buf
  | k + 1, i, buf =>
    match load buf (i + 1) with
    | none => none
    | some v =>
      match store buf i v with
      | none => none
      | some buf1 => remove_shift k (i + 1) buf1

/-- The function `arraylist_remove_at_index`.  Past the guard `size` is at
least one, so `size - 1` does not wrap. -/
def arraylist_remove_at_index (arraylist : arraylist_t) (index : Nat) : Outcome Ptr :=
  if index < 0 ∨ index ≥ arraylist.size then Outcome.exit arraylist
  else
    match arraylist.elements with
    | none => Outcome.ub
    | some buf =>
      match load buf index with
      | none => Outcome.ub
      | some element =>
        match remove_shift (arraylist.size - 1 - index) index buf with
        | none => Outcome.ub
        | some buf1 =>
          match store buf1 (arraylist.size - 1) 0 with
          | none => Outcome.ub
          | some buf2 =>
            Outcome.ok element
              { arraylist with elements := some buf2, size := arraylist.size - 1 }

/-- The function `arraylist_enqueue`. -/
def arraylist_enqueue (arraylist : arraylist_t) (element : Ptr) : Outcome Unit :=
  arraylist_add_at_index arraylist element arraylist.size

/-- The function `arraylist_dequeue`. -/
def arraylist_dequeue (arraylist : arraylist_t) : Outcome Ptr :=
  arraylist_remove_at_index arraylist 0

/-- The function `arraylist_enqueue_front`. -/
def arraylist_enqueue_front (arraylist : arraylist_t) (element : Ptr) : Outcome Unit :=
  arraylist_add_at_index arraylist element 0

/-- The function `arraylist_dequeue_back`; `size - 1` is computed in
`uint64_t` and wraps to `2 ^ 64 - 1` when `size` is zero. -/
def arraylist_dequeue_back (arraylist : arraylist_t) : Outcome Ptr :=
  arraylist_remove_at_index arraylist (u64_sub arraylist.size 1)

/-- The function `arraylist_move_to_index`. -/
def arraylist_move_to_index (arraylist : arraylist_t) (current_index new_index : Nat) :
    Outcome Unit :=
  if current_index < 0 ∨ new_index < 0 ∨ current_index ≥ arraylist.size ∨
      new_index ≥ arraylist.size then Outcome.exit arraylist
  else if current_index = new_index then Outcome.ok () arraylist
  else
    match arraylist_remove_at_index arraylist current_index with
    | Outcome.ok current_element arraylist1 =>
      arraylist_add_at_index arraylist1 current_element new_index
    | Outcome.exit arraylist1 => Outcome.exit arraylist1
    | Outcome.ub => Outcome.ub

/-- The function `arraylist_swap`. -/
def arraylist_swap (arraylist : arraylist_t) (index_1 index_2 : Nat) : Outcome Unit :=
  if index_1 < 0 ∨ index_2 < 0 ∨ index_1 ≥ arraylist.size ∨
      index_2 ≥ arraylist.size then Outcome.exit arraylist
  else if index_1 = index_2 then Outcome.ok () arraylist
  else
    match arraylist.elements with
    | none => Outcome.ub
    | some buf =>
      match load buf index_1 with
      | none => Outcome.ub
      | some element_1 =>
        match load buf index_2 with
        | none => Outcome.ub
        | some element_2 =>
          match store buf index_1 element_2 with
          | none => Outcome.ub
          | some buf1 =>
            match store buf1 index_2 element_1 with
            | none => Outcome.ub
            | some buf2 => Outcome.ok () { arraylist with elements := some buf2 }

/-- The function `arraylist_is_full`. -/
def arraylist_is_full (arraylist : arraylist_t) : Outcome Bool :=
  Outcome.ok (decide (arraylist.size = arraylist.capacity)) arraylist

/-- The function `arraylist_is_empty`. -/
def arraylist_is_empty (arraylist : arraylist_t) : Outcome Bool :=
  Outcome.ok (decide (arraylist.size = 0)) arraylist

/-- The loop of `arraylist_contains`:
`for (i = 0; i < size; i++) if (elements[i] == element) return true;` followed
by `return false`.  The first argument after `element` counts the iterations
still to run, `size - i`; the second is the current `i`.  The result is `none`
when a slot access is outside the block. -/
def contains_scan (elements : Option (List Ptr)) (element : Ptr) : Nat → Nat → Option Bool
  | 0, _ => some false
  | k + 1, i =>
    match elements with
    | none => none
    | some buf =>
      match load buf i with
      | none => none
      | some v => if v = element then some true else contains_scan elements element k (i + 1)

/-- The function `arraylist_contains` (the two-argument form of `arraylist.c`). -/
def arraylist_contains (arraylist : arraylist_t) (element : Ptr) : Outcome Bool :=
  if element = 0 then Outcome.exit arraylist
  else
    match contains_scan arraylist.elements element arraylist.size 0 with
    | none => Outcome.ub
    | some b => Outcome.ok b arraylist

/-! ## Views of the struct used to state the properties -/

/-- The content of slot `j` of the buffer, when the buffer has such a slot. -/
def slot (s : arraylist_t) (j : Nat) : Option Ptr :=
  match s.elements with
  | none => none
  | some buf => buf[j]?

/-- The live elements: the slots at positions below `size`, in order. -/
def live (s : arraylist_t) : List Ptr :=
  match s.elements with
  | none => []
  | some buf => buf.take s.size

/-- The number of slots the buffer holds; zero when the buffer is `NULL`. -/
def slots (s : arraylist_t) : Nat :=
  match s.elements with
  | none => 0
  | some buf => buf.length

/-- A sequence in the sense of the data model: the struct has a buffer, the
buffer holds at least `capacity` slots, at most `capacity` elements are stored,
and `capacity` is a `uint64_t` value. -/
def well_formed (s : arraylist_t) : Prop :=
  s.elements ≠ none ∧ s.capacity ≤ slots s ∧ s.size ≤ s.capacity ∧ s.capacity < 2 ^ 64

instance well_formed_decidable (s : arraylist_t) : Decidable (well_formed s) :=
  inferInstanceAs (Decidable
    (s.elements ≠ none ∧ s.capacity ≤ slots s ∧ s.size ≤ s.capacity ∧ s.capacity < 2 ^ 64))

/-! ## Series of calls -/

/-- The struct a call leaves behind when it returns normally. -/
def Outcome.returned {α : Type} : Outcome α → Option arraylist_t
  | Outcome.ok _ s => some s
  | Outcome.exit _ => none
  | Outcome.ub => none

/-- One call of an operation of the interface, with its arguments. -/
inductive Op where
  | resize (heap_ok : Bool) (junk : Nat → Ptr) (newsize : Nat)
  | add_at_index (element : Ptr) (index : Nat)
  | remove_at_index (index : Nat)
  | enqueue (element : Ptr)
  | enqueue_front (element : Ptr)
  | dequeue
  | dequeue_back
  | move_to_index (current_index new_index : Nat)
  | swap (index_1 index_2 : Nat)
  | is_full
  | is_empty
  | contains (element : Ptr)

/-- The struct after a successful call of `op` on `s`; `none` when the call
does not return normally. -/
def Op.run (op : Op) (s : arraylist_t) : Option arraylist_t :=
  match op with
  | Op.resize heap_ok junk newsize => (arraylist_resize heap_ok junk s newsize).returned
  | Op.add_at_index element index => (arraylist_add_at_index s element index).returned
  | Op.remove_at_index index => (arraylist_remove_at_index s index).returned
  | Op.enqueue element => (arraylist_enqueue s element).returned
  | Op.enqueue_front element => (arraylist_enqueue_front s element).returned
  | Op.dequeue => (arraylist_dequeue s).returned
  | Op.dequeue_back => (arraylist_dequeue_back s).returned
  | Op.move_to_index current_index new_index =>
    (arraylist_move_to_index s current_index new_index).returned
  | Op.swap index_1 index_2 => (arraylist_swap s index_1 index_2).returned
  | Op.is_full => (arraylist_is_full s).returned
  | Op.is_empty => (arraylist_is_empty s).returned
  | Op.contains element => (arraylist_contains s element).returned

/-- The relation `Steps s s1`: `s1` is reached from `s` by a finite series of successful calls. -/
inductive Steps : arraylist_t → arraylist_t → Prop
  | refl (s : arraylist_t) : Steps s s
  | tail (s s1 s2 : arraylist_t) (op : Op) : Steps s s1 → op.run s1 = some s2 → Steps s s2

/-- A caller that runs `arraylist_enqueue` on each element of the list in
turn, stopping at the first call that does not return. -/
def enqueue_all : List Ptr → arraylist_t → Outcome Unit
  | [], s => Outcome.ok () s
  | e :: es, s =>
    match arraylist_enqueue s e with
    | Outcome.ok _ s1 => enqueue_all es s1
    | Outcome.exit s1 => Outcome.exit s1
    | Outcome.ub => Outcome.ub

/-- A caller that runs `arraylist_dequeue` `n` times and collects the returned
elements in the order of the calls. -/
def dequeue_n : Nat → arraylist_t → Outcome (List Ptr)
  | 0, s => Outcome.ok [] s
  | n + 1, s =>
    match arraylist_dequeue s with
    | Outcome.ok x s1 =>
      match dequeue_n n s1 with
      | Outcome.ok xs s2 => Outcome.ok (x :: xs) s2
      | Outcome.exit s2 => Outcome.exit s2
      | Outcome.ub => Outcome.ub
    | Outcome.exit s1 => Outcome.exit s1
    | Outcome.ub => Outcome.ub

/-- A caller that runs `arraylist_enqueue_front` on each element of the list
in turn, stopping at the first call that does not return. -/
def enqueue_front_all : List Ptr → arraylist_t → Outcome Unit
  | [], s => Outcome.ok () s
  | e :: es, s =>
    match arraylist_enqueue_front s e with
    | Outcome.ok _ s1 => enqueue_front_all es s1
    | Outcome.exit s1 => Outcome.exit s1
    | Outcome.ub => Outcome.ub

/-- A caller that runs `arraylist_dequeue_back` `n` times and collects the
returned elements in the order of the calls. -/
def dequeue_back_n : Nat → arraylist_t → Outcome (List Ptr)
  | 0, s => Outcome.ok [] s
  | n + 1, s =>
    match arraylist_dequeue_back s with
    | Outcome.ok x s1 =>
      match dequeue_back_n n s1 with
      | Outcome.ok xs s2 => Outcome.ok (x :: xs) s2
      | Outcome.exit s2 => Outcome.exit s2
      | Outcome.ub => Outcome.ub
    | Outcome.exit s1 => Outcome.exit s1
    | Outcome.ub => Outcome.ub

/-! ## Concrete structs used in the examples -/

/-- Capacity 5, three elements in place. -/
def c1_state : arraylist_t :=
  { elements := some [11, 12, 13, 0, 0], size := 3, capacity := 5, element_size := 8 }

/-- An empty sequence of capacity 3. -/
def c5_empty : arraylist_t :=
  { elements := some [0, 0, 0], size := 0, capacity := 3, element_size := 8 }

/-- A struct as `arraylist_init` may receive it: allocated by the caller but
not yet initialised, its fields holding leftover values. -/
def fresh_struct : arraylist_t :=
  { elements := none, size := 7, capacity := 3, element_size := 9 }

/-- Capacity 2, two elements in place. -/
def c7_full : arraylist_t :=
  { elements := some [21, 22], size := 2, capacity := 2, element_size := 8 }

/-- Capacity 5, three elements in place. -/
def c9_state : arraylist_t :=
  { elements := some [31, 32, 33, 0, 0], size := 3, capacity := 5, element_size := 8 }

/-- Capacity 4, element width 1, three elements in place. -/
def c10_state : arraylist_t :=
  { elements := some [41, 42, 43, 0], size := 3, capacity := 4, element_size := 1 }

/-- The struct after `arraylist_init` with capacity 2 and element width 8. -/
def c4_init : arraylist_t :=
  { elements := some [0, 0], size := 0, capacity := 2, element_size := 8 }

/-- The struct `c4_init` after one `arraylist_enqueue`. -/
def c4_after : arraylist_t :=
  { elements := some [5, 0], size := 1, capacity := 2, element_size := 8 }

/-- The elements `a, b, c, d` (addresses 1, 2, 3, 4) in a sequence of capacity 4. -/
def abcd_state : arraylist_t :=
  { elements := some [1, 2, 3, 4], size := 4, capacity := 4, element_size := 8 }

/-! ## The queue operations as the specification words them -/

/-- The operation `PushBack(element)` in the specification's words: `InsertAt(element, size)`. -/
def spec_push_back (s : arraylist_t) (element : Ptr) : Outcome Unit :=
  arraylist_add_at_index s element s.size

/-- The operation `PopFront()` in the specification's words: `RemoveAt(0)`. -/
def spec_pop_front (s : arraylist_t) : Outcome Ptr :=
  arraylist_remove_at_index s 0

/-- The operation `PushFront(element)` in the specification's words: `InsertAt(element, 0)`. -/
def spec_push_front (s : arraylist_t) (element : Ptr) : Outcome Unit :=
  arraylist_add_at_index s element 0

/-- The operation `PopBack()` in the specification's words: `RemoveAt(size - 1)`,
with `size - 1` taken in unsigned 64-bit arithmetic, that is `2 ^ 64 - 1` when
`size` is zero. -/
def spec_pop_back (s : arraylist_t) : Outcome Ptr :=
  arraylist_remove_at_index s (if s.size = 0 then 2 ^ 64 - 1 else s.size - 1)

/-! ## The invariants of the data model and the states a caller can reach -/

/-- The invariants of the data model: the struct is a sequence (`size ≤ capacity`,
a buffer of at least `capacity` slots) and every live slot holds a non-null
element reference. -/
def invariants (s : arraylist_t) : Prop :=
  well_formed s ∧ ∀ x ∈ live s, x ≠ 0

/-- A call is atomic at `s` when it either returns normally and leaves a struct
that satisfies the invariants, or ends in `exit(1)` with the struct as it was. -/
def atomic {α : Type} (s : arraylist_t) (o : Outcome α) : Prop :=
  (∃ r s1, o = Outcome.ok r s1 ∧ invariants s1) ∨ o = Outcome.exit s

/-- The element references a call passes to an insertion. -/
def Op.inserted : Op → List Ptr
  | Op.add_at_index element _ => [element]
  | Op.enqueue element => [element]
  | Op.enqueue_front element => [element]
  | _ => []

/-- For a resize: the byte count handed to `realloc`, `newsize * element_size`
in 64 bits, pays for `newsize` pointer-sized slots.  Every other call fits. -/
def Op.fits (op : Op) (s : arraylist_t) : Prop :=
  match op with
  | Op.resize _ _ newsize => newsize * sizeof_ptr ≤ u64 (newsize * s.element_size)
  | _ => True

/-- The relation `Reached bound ins s`: the struct `s` is what a caller holds
after `arraylist_init` with a positive capacity below `bound` and a positive
element width, followed by a series of successful calls in which every resize
fits; `ins` lists the element references passed to insertions on the way. -/
inductive Reached (bound : Nat) : List Ptr → arraylist_t → Prop
  | init (heap_ok : Bool) (junk : Nat → Ptr) (s0 s : arraylist_t) (capacity element_size : Nat) :
      0 < capacity → capacity < bound → 0 < element_size →
      arraylist_init heap_ok junk s0 capacity element_size = Outcome.ok () s →
      Reached bound [] s
  | step (ins : List Ptr) (s s1 : arraylist_t) (op : Op) :
      Reached bound ins s → op.fits s → op.run s = some s1 →
      Reached bound (op.inserted ++ ins) s1

/-- The struct has a buffer, and the buffer holds at least `size` slots. -/
def has_room (s : arraylist_t) : Prop :=
  s.elements ≠ none ∧ s.size ≤ slots s

/-- The struct `arraylist_init` sets up for capacity `2 ^ 61 + 1`: the byte
count `capacity * 8` wraps to 8, so the block holds one slot. -/
def big_state : arraylist_t :=
  { elements := some [0], size := 0, capacity := 2 ^ 61 + 1, element_size := 8 }

/-- The struct `big_state` after one `arraylist_enqueue`. -/
def big_state1 : arraylist_t :=
  { elements := some [5], size := 1, capacity := 2 ^ 61 + 1, element_size := 8 }

/-! ## Properties -/

/-! ### Well-formed structs -/

theorem well_formed_elim {s : arraylist_t} (h : well_formed s) :
    s.capacity < 2 ^ 64 ∧ s.size ≤ s.capacity ∧
      ∃ buf, s.elements = some buf ∧ s.capacity ≤ buf.length := by
  obtain ⟨h1, h2, h3, h4⟩ := h
  cases hb : s.elements with
  | none => exact absurd hb h1
  | some buf =>
    refine ⟨h4, h3, buf, rfl, ?_⟩
    simpa only [slots, hb] using h2

theorem well_formed_intro (s : arraylist_t) (buf : List Ptr) (hb : s.elements = some buf)
    (hlen : s.capacity ≤ buf.length) (hle : s.size ≤ s.capacity) (h64 : s.capacity < 2 ^ 64) :
    well_formed s := by
  refine ⟨?_, ?_, hle, h64⟩
  · rw [hb]
    exact Option.some_ne_none buf
  · simpa only [slots, hb] using hlen

/-! ### The two shifting loops -/

/-- The insertion loop runs to its end inside the block and moves slots
`index .. index + k - 1` one place toward the back. -/
theorem add_shift_spec (index : Nat) : ∀ (k : Nat) (buf : List Ptr), index + k < buf.length →
    ∃ buf1, add_shift index k buf = some buf1 ∧ buf1.length = buf.length ∧
      ∀ j, buf1[j]? = if index < j ∧ j ≤ index + k then buf[j - 1]? else buf[j]? := by
  intro k
  induction k with
  | zero =>
    intro buf _
    refine ⟨buf, rfl, rfl, fun j => ?_⟩
    rw [if_neg (by omega)]
  | succ k ih =>
    intro buf h
    have h1 : index + k < buf.length := by omega
    have h2 : index + k + 1 < buf.length := by omega
    obtain ⟨buf1, hb, hl, hj⟩ := ih (buf.set (index + k + 1) buf[index + k]) (by simp; omega)
    refine ⟨buf1, ?_, ?_, fun j => ?_⟩
    · simp only [add_shift, load, store, List.getElem?_eq_getElem h1, h2, if_true]
      exact hb
    · simpa using hl
    · rw [hj j]
      simp only [List.getElem?_set]
      by_cases c1 : index < j ∧ j ≤ index + k
      · have c2 : index < j ∧ j ≤ index + (k + 1) := by omega
        have c3 : ¬ (index + k + 1 = j - 1) := by omega
        simp [c1, c2, c3]
      · by_cases c4 : j = index + k + 1
        · subst c4
          have c2 : index < index + k + 1 ∧ index + k + 1 ≤ index + (k + 1) := by omega
          simp [c1, c2, h2, List.getElem?_eq_getElem h1]
        · have c2 : ¬ (index < j ∧ j ≤ index + (k + 1)) := by omega
          have c3 : ¬ (index + k + 1 = j) := by omega
          simp [c1, c2, c3]

/-- The removal loop runs to its end inside the block and moves slots
`i + 1 .. i + k` one place toward the front. -/
theorem remove_shift_spec : ∀ (k i : Nat) (buf : List Ptr), i + k < buf.length →
    ∃ buf1, remove_shift k i buf = some buf1 ∧ buf1.length = buf.length ∧
      ∀ j, buf1[j]? = if i ≤ j ∧ j < i + k then buf[j + 1]? else buf[j]? := by
  intro k
  induction k with
  | zero =>
    intro i buf _
    refine ⟨buf, rfl, rfl, fun j => ?_⟩
    rw [if_neg (by omega)]
  | succ k ih =>
    intro i buf h
    have h1 : i + 1 < buf.length := by omega
    have h2 : i < buf.length := by omega
    obtain ⟨buf1, hb, hl, hj⟩ := ih (i + 1) (buf.set i buf[i + 1]) (by simp; omega)
    refine ⟨buf1, ?_, ?_, fun j => ?_⟩
    · simp only [remove_shift, load, store, List.getElem?_eq_getElem h1, h2, if_true]
      exact hb
    · simpa using hl
    · rw [hj j]
      simp only [List.getElem?_set]
      by_cases c1 : i + 1 ≤ j ∧ j < i + 1 + k
      · have c2 : i ≤ j ∧ j < i + (k + 1) := by omega
        have c3 : ¬ (i = j + 1) := by omega
        simp [c1, c2, c3]
      · by_cases c4 : j = i
        · subst c4
          have c2 : j ≤ j ∧ j < j + (k + 1) := by omega
          simp [c1, c2, h2, List.getElem?_eq_getElem h1]
        · have c2 : ¬ (i ≤ j ∧ j < i + (k + 1)) := by omega
          have c3 : ¬ (i = j) := by omega
          simp [c1, c2, c3]

/-! ### Insertion and removal, slot by slot and on the live elements -/

/-- Insertion on a struct whose block holds `capacity` slots: the outcome and
every slot of the new block. -/
theorem add_at_index_ok (s : arraylist_t) (buf : List Ptr) (e : Ptr) (index : Nat)
    (hbuf : s.elements = some buf) (hlen : s.capacity ≤ buf.length)
    (h64 : s.capacity < 2 ^ 64) (hsz : s.size < s.capacity) (hidx : index ≤ s.size)
    (he : e ≠ 0) :
    ∃ buf2, arraylist_add_at_index s e index =
        Outcome.ok () { s with elements := some buf2, size := s.size + 1 } ∧
      buf2.length = buf.length ∧
      ∀ j, buf2[j]? = if j = index then some e
        else if index < j ∧ j ≤ s.size then buf[j - 1]? else buf[j]? := by
  obtain ⟨buf1, hb, hl, hj⟩ := add_shift_spec index (s.size - index) buf (by omega)
  have hi : index < buf1.length := by omega
  have hne : s.size ≠ s.capacity := by omega
  have hu : u64 (s.size + 1) = s.size + 1 := by
    unfold u64
    exact Nat.mod_eq_of_lt (by omega)
  refine ⟨buf1.set index e, ?_, ?_, fun j => ?_⟩
  · have hg : ¬ (index < 0 ∨ index > s.size) := by omega
    simp only [arraylist_add_at_index, he, hg, hne, hbuf, hb, store, hi, hu, if_true, if_false]
  · simpa using hl
  · rw [List.getElem?_set]
    by_cases c : j = index
    · subst c
      simp [hi]
    · have c1 : ¬ (index = j) := fun h => c h.symm
      rw [if_neg c1, if_neg c, hj j]
      by_cases c2 : index < j ∧ j ≤ s.size
      · rw [if_pos c2, if_pos (by omega)]
      · rw [if_neg c2, if_neg (by omega)]

/-- Removal on a struct whose block holds `size` slots: the outcome and every
slot of the new block. -/
theorem remove_at_index_ok (s : arraylist_t) (buf : List Ptr) (index : Nat)
    (hbuf : s.elements = some buf) (hlen : s.size ≤ buf.length) (hidx : index < s.size) :
    ∃ x buf2, buf[index]? = some x ∧
      arraylist_remove_at_index s index =
        Outcome.ok x { s with elements := some buf2, size := s.size - 1 } ∧
      buf2.length = buf.length ∧
      ∀ j, buf2[j]? = if j = s.size - 1 then some 0
        else if index ≤ j ∧ j < s.size - 1 then buf[j + 1]? else buf[j]? := by
  obtain ⟨buf1, hb, hl, hj⟩ := remove_shift_spec (s.size - 1 - index) index buf (by omega)
  have hi : index < buf.length := by omega
  have hlast : s.size - 1 < buf1.length := by omega
  refine ⟨buf[index], buf1.set (s.size - 1) 0, List.getElem?_eq_getElem hi, ?_, ?_, fun j => ?_⟩
  · have hg : ¬ (index < 0 ∨ index ≥ s.size) := by omega
    simp only [arraylist_remove_at_index, hg, hbuf, load, List.getElem?_eq_getElem hi, hb,
      store, hlast, if_true, if_false]
  · simpa using hl
  · rw [List.getElem?_set]
    by_cases c : j = s.size - 1
    · subst c
      simp [hlast]
    · have c1 : ¬ (s.size - 1 = j) := fun h => c h.symm
      rw [if_neg c1, if_neg c, hj j]
      by_cases c2 : index ≤ j ∧ j < s.size - 1
      · rw [if_pos c2, if_pos (by omega)]
      · rw [if_neg c2, if_neg (by omega)]

theorem live_length (s : arraylist_t) (hwf : well_formed s) : (live s).length = s.size := by
  obtain ⟨_, h2, buf, hbuf, hlen⟩ := well_formed_elim hwf
  simp only [live, hbuf, List.length_take]
  omega

theorem take_insert (buf buf2 : List Ptr) (size index : Nat) (e : Ptr)
    (hlen : size < buf.length) (hl2 : buf2.length = buf.length) (hidx : index ≤ size)
    (hj : ∀ j, buf2[j]? = if j = index then some e
        else if index < j ∧ j ≤ size then buf[j - 1]? else buf[j]?) :
    buf2.take (size + 1) = (buf.take size).take index ++ e :: (buf.take size).drop index := by
  apply List.ext_getElem?
  intro n
  have hA : ((buf.take size).take index).length = index := by
    simp only [List.length_take]; omega
  rw [List.getElem?_take, List.getElem?_append, hA, hj n]
  by_cases c1 : n < index
  · rw [if_pos c1, if_pos (by omega), if_neg (by omega), if_neg (by omega)]
    simp only [List.getElem?_take]
    rw [if_pos c1, if_pos (by omega)]
  · rw [if_neg c1]
    by_cases c2 : n = index
    · subst c2
      simp
      omega
    · obtain ⟨m, hm⟩ : ∃ m, n - index = m + 1 := ⟨n - index - 1, by omega⟩
      rw [hm, List.getElem?_cons_succ, List.getElem?_drop, List.getElem?_take, if_neg c2]
      by_cases c3 : n < size + 1
      · rw [if_pos c3, if_pos (by omega), if_pos (by omega)]
        congr 1
        omega
      · rw [if_neg c3, if_neg (by omega)]

theorem take_erase (buf buf2 : List Ptr) (size index : Nat)
    (hidx : index < size)
    (hj : ∀ j, buf2[j]? = if j = size - 1 then some 0
        else if index ≤ j ∧ j < size - 1 then buf[j + 1]? else buf[j]?) :
    buf2.take (size - 1) = (buf.take size).eraseIdx index := by
  apply List.ext_getElem?
  intro n
  rw [List.getElem?_take, List.getElem?_eraseIdx, hj n]
  simp only [List.getElem?_take]
  by_cases c1 : n < size - 1
  · rw [if_pos c1, if_neg (by omega)]
    by_cases c2 : n < index
    · rw [if_pos c2, if_neg (by omega), if_pos (by omega)]
    · rw [if_neg c2, if_pos (by omega), if_pos (by omega)]
  · rw [if_neg c1]
    by_cases c2 : n < index
    · omega
    · rw [if_neg c2, if_neg (by omega)]

/-- Insertion seen on the live elements. -/
theorem add_at_index_live (s : arraylist_t) (e : Ptr) (index : Nat)
    (hwf : well_formed s) (hsz : s.size < s.capacity) (hidx : index ≤ s.size) (he : e ≠ 0) :
    ∃ s1, arraylist_add_at_index s e index = Outcome.ok () s1 ∧ well_formed s1 ∧
      s1.size = s.size + 1 ∧ s1.capacity = s.capacity ∧
      live s1 = (live s).take index ++ e :: (live s).drop index := by
  obtain ⟨h64, _, buf, hbuf, hlen⟩ := well_formed_elim hwf
  obtain ⟨buf2, hr, hl2, hj⟩ := add_at_index_ok s buf e index hbuf hlen h64 hsz hidx he
  refine ⟨_, hr, well_formed_intro _ buf2 rfl ?_ ?_ h64, rfl, rfl, ?_⟩
  · show s.capacity ≤ buf2.length
    omega
  · show s.size + 1 ≤ s.capacity
    omega
  · simp only [live, hbuf]
    exact take_insert buf buf2 s.size index e (by omega) hl2 hidx hj

/-- Removal seen on the live elements. -/
theorem remove_at_index_live (s : arraylist_t) (index : Nat)
    (hwf : well_formed s) (hidx : index < s.size) :
    ∃ x s1, (live s)[index]? = some x ∧ arraylist_remove_at_index s index = Outcome.ok x s1 ∧
      well_formed s1 ∧ s1.size = s.size - 1 ∧ s1.capacity = s.capacity ∧
      live s1 = (live s).eraseIdx index := by
  obtain ⟨h64, hle, buf, hbuf, hlen⟩ := well_formed_elim hwf
  obtain ⟨x, buf2, hx, hr, hl2, hj⟩ := remove_at_index_ok s buf index hbuf (by omega) hidx
  refine ⟨x, _, ?_, hr, well_formed_intro _ buf2 rfl ?_ ?_ h64, rfl, rfl, ?_⟩
  · simp only [live, hbuf, List.getElem?_take, hidx, if_true, hx]
  · show s.capacity ≤ buf2.length
    omega
  · show s.size - 1 ≤ s.capacity
    omega
  · simp only [live, hbuf]
    exact take_erase buf buf2 s.size index hidx hj

/-! ### Insertion, removal and their round trip -/

/-- Claim C1 (InsertAt, `arraylist_add_at_index`): on a sequence with
`size < capacity`, for an index with `index ≤ size` and a non-null element `e`,
the call returns normally; afterwards `size` has grown by exactly one,
`capacity` is unchanged, slot `index` holds `e`, every slot below `index` holds
what it held before, every slot `j` with `index < j ≤ old size` holds what slot
`j - 1` held before, and the live elements are
`old[0..index) ++ [e] ++ old[index..size)`. -/
theorem C1_add_at_index_shifts_back (s : arraylist_t) (e : Ptr) (index : Nat)
    (hwf : well_formed s) (hsz : s.size < s.capacity) (hidx : index ≤ s.size) (he : e ≠ 0) :
    ∃ s1, arraylist_add_at_index s e index = Outcome.ok () s1 ∧
      s1.size = s.size + 1 ∧ s1.capacity = s.capacity ∧
      slot s1 index = some e ∧
      (∀ j, j < index → slot s1 j = slot s j) ∧
      (∀ j, index < j → j ≤ s.size → slot s1 j = slot s (j - 1)) ∧
      live s1 = (live s).take index ++ [e] ++ (live s).drop index := by
  obtain ⟨h64, _, buf, hbuf, hlen⟩ := well_formed_elim hwf
  obtain ⟨buf2, hr, hl2, hj⟩ := add_at_index_ok s buf e index hbuf hlen h64 hsz hidx he
  refine ⟨_, hr, rfl, rfl, ?_, ?_, ?_, ?_⟩
  · simp only [slot, hj index, if_true]
  · intro j hlt
    simp only [slot, hbuf, hj j]
    rw [if_neg (by omega), if_neg (by omega)]
  · intro j h1 h2
    simp only [slot, hbuf, hj j]
    rw [if_neg (by omega), if_pos ⟨h1, h2⟩]
  · simp only [live, hbuf, List.append_assoc, List.singleton_append]
    exact take_insert buf buf2 s.size index e (by omega) hl2 hidx hj

theorem C1_witness :
    well_formed c1_state ∧ c1_state.size < c1_state.capacity ∧ 1 ≤ c1_state.size ∧ (99 : Ptr) ≠ 0 ∧
    ∃ s1, arraylist_add_at_index c1_state 99 1 = Outcome.ok () s1 ∧
      s1.size = c1_state.size + 1 ∧ s1.capacity = c1_state.capacity ∧
      slot s1 1 = some 99 ∧
      (∀ j, j < 1 → slot s1 j = slot c1_state j) ∧
      (∀ j, 1 < j → j ≤ c1_state.size → slot s1 j = slot c1_state (j - 1)) ∧
      live s1 = (live c1_state).take 1 ++ [99] ++ (live c1_state).drop 1 :=
  ⟨(by decide), by decide, by decide, by decide,
    C1_add_at_index_shifts_back c1_state 99 1 (by decide)
      (by decide) (by decide) (by decide)⟩

/-- Claim C2 (RemoveAt, `arraylist_remove_at_index`): on a sequence, for an
index with `index < size`, the call returns normally with the element that was
in slot `index`; afterwards `size` has shrunk by exactly one, `capacity` is
unchanged, every slot below `index` is unchanged, every slot `j` with
`index ≤ j < new size` holds what slot `j + 1` held before, and the vacated
slot `old size - 1` holds `NULL`.  The live elements are the old ones with
position `index` erased. -/
theorem C2_remove_at_index_shifts_front (s : arraylist_t) (index : Nat)
    (hwf : well_formed s) (hidx : index < s.size) :
    ∃ x s1, slot s index = some x ∧
      arraylist_remove_at_index s index = Outcome.ok x s1 ∧
      s1.size + 1 = s.size ∧ s1.capacity = s.capacity ∧
      (∀ j, j < index → slot s1 j = slot s j) ∧
      (∀ j, index ≤ j → j < s1.size → slot s1 j = slot s (j + 1)) ∧
      slot s1 (s.size - 1) = some 0 ∧
      live s1 = (live s).eraseIdx index := by
  obtain ⟨h64, hle, buf, hbuf, hlen⟩ := well_formed_elim hwf
  obtain ⟨x, buf2, hx, hr, hl2, hj⟩ := remove_at_index_ok s buf index hbuf (by omega) hidx
  refine ⟨x, _, ?_, hr, ?_, rfl, ?_, ?_, ?_, ?_⟩
  · simp only [slot, hbuf, hx]
  · show s.size - 1 + 1 = s.size
    omega
  · intro j hlt
    simp only [slot, hbuf, hj j]
    rw [if_neg (by omega), if_neg (by omega)]
  · intro j h1 h2
    have h3 : j < s.size - 1 := h2
    simp only [slot, hbuf, hj j]
    rw [if_neg (by omega), if_pos ⟨h1, h3⟩]
  · simp only [slot, hj (s.size - 1), if_true]
  · simp only [live, hbuf]
    exact take_erase buf buf2 s.size index hidx hj

theorem C2_witness :
    well_formed c1_state ∧ 1 < c1_state.size ∧
    ∃ x s1, slot c1_state 1 = some x ∧
      arraylist_remove_at_index c1_state 1 = Outcome.ok x s1 ∧
      s1.size + 1 = c1_state.size ∧ s1.capacity = c1_state.capacity ∧
      (∀ j, j < 1 → slot s1 j = slot c1_state j) ∧
      (∀ j, 1 ≤ j → j < s1.size → slot s1 j = slot c1_state (j + 1)) ∧
      slot s1 (c1_state.size - 1) = some 0 ∧
      live s1 = (live c1_state).eraseIdx 1 :=
  ⟨by decide, by decide,
    C2_remove_at_index_shifts_front c1_state 1 (by decide) (by decide)⟩

/-- Claim C3 (insert/remove round trip): on a sequence with `size < capacity`,
for `i ≤ size` and a non-null `e`, `arraylist_add_at_index` at `i` followed by
`arraylist_remove_at_index` at `i` both return normally, the removal returns
`e`, and the struct has the same `size`, the same `capacity` and the same
element at every position below `size` as before the two calls. -/
theorem C3_insert_then_remove_round_trip (s : arraylist_t) (e : Ptr) (i : Nat)
    (hwf : well_formed s) (hsz : s.size < s.capacity) (hi : i ≤ s.size) (he : e ≠ 0) :
    ∃ s1 s2, arraylist_add_at_index s e i = Outcome.ok () s1 ∧
      arraylist_remove_at_index s1 i = Outcome.ok e s2 ∧
      s2.size = s.size ∧ s2.capacity = s.capacity ∧
      (∀ j, j < s.size → slot s2 j = slot s j) ∧
      live s2 = live s := by
  obtain ⟨h64, _, buf, hbuf, hlen⟩ := well_formed_elim hwf
  obtain ⟨buf2, hr, hl2, hj⟩ := add_at_index_ok s buf e i hbuf hlen h64 hsz hi he
  obtain ⟨x, buf3, hx, hr3, hl3, hj3⟩ :=
    remove_at_index_ok { s with elements := some buf2, size := s.size + 1 } buf2 i rfl
      (by show s.size + 1 ≤ buf2.length; omega) (by show i < s.size + 1; omega)
  have hxe : x = e := by
    rw [hj i, if_pos rfl] at hx
    exact (Option.some.inj hx).symm
  subst hxe
  have hpt : ∀ j, j < s.size → buf3[j]? = buf[j]? := by
    intro j hlt
    have h := hj3 j
    simp only [Nat.add_sub_cancel] at h
    rw [h, if_neg (by omega)]
    by_cases c : i ≤ j
    · rw [if_pos ⟨c, hlt⟩, hj (j + 1), if_neg (by omega), if_pos (by omega)]
      rfl
    · rw [if_neg (by omega), hj j, if_neg (by omega), if_neg (by omega)]
  refine ⟨_, _, hr, hr3, rfl, rfl, ?_, ?_⟩
  · intro j hlt
    simp only [slot, hbuf]
    exact hpt j hlt
  · simp only [live, hbuf, Nat.add_sub_cancel]
    apply List.ext_getElem?
    intro n
    simp only [List.getElem?_take]
    by_cases c : n < s.size
    · rw [if_pos c, if_pos c, hpt n c]
    · rw [if_neg c, if_neg c]

theorem C3_witness :
    well_formed c1_state ∧ c1_state.size < c1_state.capacity ∧ 1 ≤ c1_state.size ∧
    (99 : Ptr) ≠ 0 ∧
    ∃ s1 s2, arraylist_add_at_index c1_state 99 1 = Outcome.ok () s1 ∧
      arraylist_remove_at_index s1 1 = Outcome.ok 99 s2 ∧
      s2.size = c1_state.size ∧ s2.capacity = c1_state.capacity ∧
      (∀ j, j < c1_state.size → slot s2 j = slot c1_state j) ∧
      live s2 = live c1_state :=
  ⟨by decide, by decide, by decide, by decide,
    C3_insert_then_remove_round_trip c1_state 99 1 (by decide) (by decide) (by decide)
      (by decide)⟩

/-! ### Successful calls keep `size ≤ capacity` -/

/-- What a normal return of `arraylist_add_at_index` says about its arguments
and about the struct it leaves. -/
theorem add_at_index_inv {s s1 : arraylist_t} {e : Ptr} {index : Nat} {r : Unit}
    (h : arraylist_add_at_index s e index = Outcome.ok r s1) :
    e ≠ 0 ∧ index ≤ s.size ∧ s.size ≠ s.capacity ∧
      ∃ buf2, s1 = { s with elements := some buf2, size := u64 (s.size + 1) } := by
  unfold arraylist_add_at_index at h
  split_ifs at h with h1 h2 h3
  split at h
  · cases h
  · split at h
    · cases h
    · split at h
      · cases h
      · injection h with _ hs
        exact ⟨h1, by omega, h3, _, hs.symm⟩

/-- What a normal return of `arraylist_remove_at_index` says about its
argument and about the struct it leaves. -/
theorem remove_at_index_inv {s s1 : arraylist_t} {index : Nat} {x : Ptr}
    (h : arraylist_remove_at_index s index = Outcome.ok x s1) :
    index < s.size ∧ ∃ buf2, s1 = { s with elements := some buf2, size := s.size - 1 } := by
  unfold arraylist_remove_at_index at h
  split_ifs at h with h1
  split at h
  · cases h
  · split at h
    · cases h
    · split at h
      · cases h
      · split at h
        · cases h
        · injection h with _ hs
          exact ⟨by omega, _, hs.symm⟩

theorem u64_le (n : Nat) : u64 n ≤ n := Nat.mod_le _ _

/-- One successful call keeps `size ≤ capacity`. -/
theorem run_keeps_bound (op : Op) (s s1 : arraylist_t) (h : op.run s = some s1)
    (hle : s.size ≤ s.capacity) : s1.size ≤ s1.capacity := by
  have hadd : ∀ (e : Ptr) (i : Nat), (arraylist_add_at_index s e i).returned = some s1 →
      s1.size ≤ s1.capacity := by
    intro e i h
    cases hr : arraylist_add_at_index s e i with
    | ok r s2 =>
      rw [hr] at h
      cases h
      obtain ⟨_, _, hne, buf2, hs⟩ := add_at_index_inv hr
      subst hs
      have := u64_le (s.size + 1)
      show u64 (s.size + 1) ≤ s.capacity
      omega
    | exit s2 => rw [hr] at h; cases h
    | ub => rw [hr] at h; cases h
  have hrem : ∀ (i : Nat), (arraylist_remove_at_index s i).returned = some s1 →
      s1.size ≤ s1.capacity := by
    intro i h
    cases hr : arraylist_remove_at_index s i with
    | ok r s2 =>
      rw [hr] at h
      cases h
      obtain ⟨_, buf2, hs⟩ := remove_at_index_inv hr
      subst hs
      show s.size - 1 ≤ s.capacity
      omega
    | exit s2 => rw [hr] at h; cases h
    | ub => rw [hr] at h; cases h
  cases op with
  | resize heap_ok junk newsize =>
    simp only [Op.run, arraylist_resize] at h
    split at h
    · cases h
    · split_ifs at h with h1
      · cases h
      · split at h
        · cases h
        · cases h
          show s.size ≤ newsize
          omega
  | add_at_index e i => exact hadd e i h
  | remove_at_index i => exact hrem i h
  | enqueue e => exact hadd e _ h
  | enqueue_front e => exact hadd e _ h
  | dequeue => exact hrem _ h
  | dequeue_back => exact hrem _ h
  | move_to_index cur new =>
    simp only [Op.run, arraylist_move_to_index] at h
    split_ifs at h with h1 h2
    · cases h
    · cases h; exact hle
    · cases hr : arraylist_remove_at_index s cur with
      | ok x s2 =>
        rw [hr] at h
        simp only at h
        obtain ⟨hlt, buf2, hs⟩ := remove_at_index_inv hr
        cases ha : arraylist_add_at_index s2 x new with
        | ok r s3 =>
          rw [ha] at h
          cases h
          obtain ⟨_, _, _, buf3, hs3⟩ := add_at_index_inv ha
          subst hs3
          subst hs
          have := u64_le (s.size - 1 + 1)
          show u64 (s.size - 1 + 1) ≤ s.capacity
          omega
        | exit s3 => rw [ha] at h; cases h
        | ub => rw [ha] at h; cases h
      | exit s2 => rw [hr] at h; cases h
      | ub => rw [hr] at h; cases h
  | swap i1 i2 =>
    simp only [Op.run, arraylist_swap] at h
    split_ifs at h with h1 h2
    · cases h
    · cases h; exact hle
    · split at h
      · cases h
      · split at h
        · cases h
        · split at h
          · cases h
          · split at h
            · cases h
            · split at h
              · cases h
              · cases h; exact hle
  | is_full => cases h; exact hle
  | is_empty => cases h; exact hle
  | contains e =>
    simp only [Op.run, arraylist_contains] at h
    split_ifs at h with h1
    · cases h
    · split at h
      · cases h
      · cases h; exact hle

theorem steps_keep_bound (s s1 : arraylist_t) (h : Steps s s1) (hle : s.size ≤ s.capacity) :
    s1.size ≤ s1.capacity := by
  induction h with
  | refl => exact hle
  | tail s1 s2 op _ hrun ih => exact run_keeps_bound op s1 s2 hrun ih

theorem init_ok_inv {heap_ok : Bool} {junk : Nat → Ptr} {s0 s : arraylist_t}
    {capacity element_size : Nat} (hcap : 0 < capacity) (hes : 0 < element_size)
    (h : arraylist_init heap_ok junk s0 capacity element_size = Outcome.ok () s) :
    ∃ buf, s = { elements := some buf, size := 0, capacity := capacity,
                 element_size := element_size } := by
  unfold arraylist_init at h
  rw [if_neg (by omega), if_neg (by omega)] at h
  split at h
  · cases h
  · injection h with _ hs
    exact ⟨_, hs.symm⟩

/-- Claim C4, as amended (invariant preservation): starting from the struct
that `arraylist_init` returns for a positive capacity and a positive element
width, after every series of successful calls of the operations (resize,
insert, remove, the four queue operations, move, swap, is-full, is-empty,
contains) `size ≤ capacity` holds. -/
theorem C4_size_le_capacity_after_every_call (heap_ok : Bool) (junk : Nat → Ptr)
    (s0 s s1 : arraylist_t) (capacity element_size : Nat)
    (hcap : 0 < capacity) (hes : 0 < element_size)
    (hinit : arraylist_init heap_ok junk s0 capacity element_size = Outcome.ok () s)
    (hsteps : Steps s s1) : s1.size ≤ s1.capacity := by
  obtain ⟨buf, hs⟩ := init_ok_inv hcap hes hinit
  apply steps_keep_bound s s1 hsteps
  subst hs
  exact Nat.zero_le _

theorem C4_witness :
    0 < 2 ∧ 0 < 8 ∧
    arraylist_init true (fun _ => 0) fresh_struct 2 8 = Outcome.ok () c4_init ∧
    Steps c4_init c4_after ∧
    c4_after.size ≤ c4_after.capacity :=
  ⟨by decide, by decide, rfl,
    Steps.tail c4_init c4_init c4_after (Op.enqueue 5) (Steps.refl c4_init) rfl,
    C4_size_le_capacity_after_every_call true (fun _ => 0) fresh_struct c4_init c4_after 2 8
      (by decide) (by decide) rfl
      (Steps.tail c4_init c4_init c4_after (Op.enqueue 5) (Steps.refl c4_init) rfl)⟩

/-- Claim C4 as stated fails: `arraylist_init` with capacity 5 and element
width 0 returns normally without touching the struct, so the leftover fields
`size = 7`, `capacity = 3` survive it and a following `arraylist_is_empty`
returns normally on a struct with `size > capacity`. -/
theorem C4_counterexample :
    arraylist_init true (fun _ => 0) fresh_struct 5 0 = Outcome.ok () fresh_struct ∧
    Steps fresh_struct fresh_struct ∧
    Op.run Op.is_empty fresh_struct = some fresh_struct ∧
    ¬ (fresh_struct.size ≤ fresh_struct.capacity) :=
  ⟨by decide, Steps.refl _, by decide, by decide⟩

/-! ### Queue laws -/

theorem enqueue_all_live : ∀ (es : List Ptr) (s : arraylist_t), well_formed s →
    s.size + es.length ≤ s.capacity → (∀ e ∈ es, e ≠ 0) →
    ∃ s1, enqueue_all es s = Outcome.ok () s1 ∧ well_formed s1 ∧
      s1.capacity = s.capacity ∧ live s1 = live s ++ es := by
  intro es
  induction es with
  | nil =>
    intro s hwf _ _
    exact ⟨s, rfl, hwf, rfl, by simp⟩
  | cons e es ih =>
    intro s hwf hcap hnn
    simp only [List.length_cons] at hcap
    obtain ⟨s1, h1, hwf1, hsz1, hc1, hl1⟩ :=
      add_at_index_live s e s.size hwf (by omega) (Nat.le_refl _) (hnn e (by simp))
    obtain ⟨s2, h2, hwf2, hc2, hl2⟩ :=
      ih s1 hwf1 (by omega) (fun x hx => hnn x (by simp [hx]))
    refine ⟨s2, ?_, hwf2, by omega, ?_⟩
    · simp only [enqueue_all, arraylist_enqueue, h1]
      exact h2
    · have hlen := live_length s hwf
      rw [hl2, hl1, ← hlen, List.take_length, List.drop_length]
      simp

theorem dequeue_n_live : ∀ (n : Nat) (s : arraylist_t), well_formed s → n ≤ s.size →
    ∃ s2, dequeue_n n s = Outcome.ok ((live s).take n) s2 ∧ well_formed s2 ∧
      s2.size = s.size - n ∧ s2.capacity = s.capacity ∧ live s2 = (live s).drop n := by
  intro n
  induction n with
  | zero =>
    intro s hwf _
    exact ⟨s, rfl, hwf, rfl, rfl, rfl⟩
  | succ n ih =>
    intro s hwf hn
    obtain ⟨x, s1, hx, h1, hwf1, hsz1, hc1, hl1⟩ := remove_at_index_live s 0 hwf (by omega)
    obtain ⟨s2, h2, hwf2, hsz2, hc2, hl2⟩ := ih s1 hwf1 (by omega)
    cases hl : live s with
    | nil => rw [hl] at hx; cases hx
    | cons a t =>
      rw [hl] at hx hl1
      simp only [List.getElem?_cons_zero, Option.some.injEq] at hx
      subst hx
      simp only [List.eraseIdx_cons_zero] at hl1
      refine ⟨s2, ?_, hwf2, by omega, by omega, ?_⟩
      · simp only [dequeue_n, arraylist_dequeue, h1, h2, hl1, List.take_succ_cons]
      · rw [hl2, hl1, List.drop_succ_cons]

/-- Claim C5 (append/pop-front queue law): on an empty sequence of capacity at
least `n`, `arraylist_enqueue` of `n` non-null elements `e1, ..., en` followed
by `n` calls of `arraylist_dequeue` all return normally, the dequeues return
`e1, ..., en` in that order, and the sequence is empty afterwards. -/
theorem C5_enqueue_dequeue_fifo (s : arraylist_t) (es : List Ptr)
    (hwf : well_formed s) (hempty : s.size = 0) (hcap : es.length ≤ s.capacity)
    (hnn : ∀ e ∈ es, e ≠ 0) :
    ∃ s1 s2, enqueue_all es s = Outcome.ok () s1 ∧
      dequeue_n es.length s1 = Outcome.ok es s2 ∧
      s2.size = 0 ∧ arraylist_is_empty s2 = Outcome.ok true s2 := by
  obtain ⟨s1, h1, hwf1, hc1, hl1⟩ := enqueue_all_live es s hwf (by omega) hnn
  have hl0 : live s = [] := by
    have := live_length s hwf
    rw [hempty] at this
    exact List.length_eq_zero.mp this
  rw [hl0, List.nil_append] at hl1
  have hsz1 : s1.size = es.length := by
    rw [← live_length s1 hwf1, hl1]
  obtain ⟨s2, h2, hwf2, hsz2, hc2, hl2⟩ := dequeue_n_live es.length s1 hwf1 (by omega)
  rw [hl1, List.take_length] at h2
  have hz : s2.size = 0 := by omega
  refine ⟨s1, s2, h1, h2, hz, ?_⟩
  simp only [arraylist_is_empty, hz, decide_True]

theorem C5_witness :
    well_formed c5_empty ∧ c5_empty.size = 0 ∧ [1, 2, 3].length ≤ c5_empty.capacity ∧
    (∀ e ∈ [1, 2, 3], e ≠ 0) ∧
    ∃ s1 s2, enqueue_all [1, 2, 3] c5_empty = Outcome.ok () s1 ∧
      dequeue_n [1, 2, 3].length s1 = Outcome.ok [1, 2, 3] s2 ∧
      s2.size = 0 ∧ arraylist_is_empty s2 = Outcome.ok true s2 :=
  ⟨(by decide), by decide, by decide, by decide,
    C5_enqueue_dequeue_fifo c5_empty [1, 2, 3] (by decide)
      (by decide) (by decide) (by decide)⟩

theorem u64_sub_one (n : Nat) (h1 : 1 ≤ n) (h2 : n < 2 ^ 64) : u64_sub n 1 = n - 1 := by
  unfold u64_sub
  norm_num at h2 ⊢
  omega

theorem reverse_eq_last_cons (l : List Ptr) (x : Ptr) (h : l[l.length - 1]? = some x) :
    l.reverse = x :: (l.eraseIdx (l.length - 1)).reverse := by
  rcases List.eq_nil_or_concat l with hnil | ⟨t, a, ht⟩
  · subst hnil
    cases h
  · subst ht
    simp only [List.concat_eq_append, List.length_append, List.length_singleton,
      Nat.add_sub_cancel] at h ⊢
    rw [List.getElem?_append_right (Nat.le_refl _)] at h
    simp only [Nat.sub_self, List.getElem?_cons_zero, Option.some.injEq] at h
    subst h
    rw [List.eraseIdx_append_of_length_le (Nat.le_refl _)]
    simp

theorem enqueue_front_all_live : ∀ (es : List Ptr) (s : arraylist_t), well_formed s →
    s.size + es.length ≤ s.capacity → (∀ e ∈ es, e ≠ 0) →
    ∃ s1, enqueue_front_all es s = Outcome.ok () s1 ∧ well_formed s1 ∧
      s1.capacity = s.capacity ∧ live s1 = es.reverse ++ live s := by
  intro es
  induction es with
  | nil =>
    intro s hwf _ _
    exact ⟨s, rfl, hwf, rfl, by simp⟩
  | cons e es ih =>
    intro s hwf hcap hnn
    simp only [List.length_cons] at hcap
    obtain ⟨s1, h1, hwf1, hsz1, hc1, hl1⟩ :=
      add_at_index_live s e 0 hwf (by omega) (Nat.zero_le _) (hnn e (by simp))
    obtain ⟨s2, h2, hwf2, hc2, hl2⟩ :=
      ih s1 hwf1 (by omega) (fun x hx => hnn x (by simp [hx]))
    refine ⟨s2, ?_, hwf2, by omega, ?_⟩
    · simp only [enqueue_front_all, arraylist_enqueue_front, h1]
      exact h2
    · rw [hl2, hl1]
      simp

theorem dequeue_back_n_live : ∀ (n : Nat) (s : arraylist_t), well_formed s → n ≤ s.size →
    ∃ s2, dequeue_back_n n s = Outcome.ok ((live s).reverse.take n) s2 ∧ well_formed s2 ∧
      s2.size = s.size - n ∧ s2.capacity = s.capacity ∧
      (live s2).reverse = (live s).reverse.drop n := by
  intro n
  induction n with
  | zero =>
    intro s hwf _
    exact ⟨s, rfl, hwf, rfl, rfl, rfl⟩
  | succ n ih =>
    intro s hwf hn
    have h64 : s.size < 2 ^ 64 := by
      obtain ⟨h, hle, _⟩ := well_formed_elim hwf
      omega
    have hidx : u64_sub s.size 1 = s.size - 1 := u64_sub_one s.size (by omega) h64
    obtain ⟨x, s1, hx, h1, hwf1, hsz1, hc1, hl1⟩ :=
      remove_at_index_live s (s.size - 1) hwf (by omega)
    obtain ⟨s2, h2, hwf2, hsz2, hc2, hl2⟩ := ih s1 hwf1 (by omega)
    have hlen := live_length s hwf
    rw [← hlen] at hx hl1
    have hrev := reverse_eq_last_cons (live s) x hx
    rw [← hl1] at hrev
    refine ⟨s2, ?_, hwf2, by omega, by omega, ?_⟩
    · simp only [dequeue_back_n, arraylist_dequeue_back, hidx, h1, h2, hrev,
        List.take_succ_cons]
    · rw [hl2, hrev, List.drop_succ_cons]

/-- Claim C6 (push-front/pop-back law): on an empty sequence of capacity at
least `n`, `arraylist_enqueue_front` of `n` non-null elements `e1, ..., en`
followed by `n` calls of `arraylist_dequeue_back` all return normally, the
dequeues return `e1, ..., en` in the order of insertion, and the sequence is
empty afterwards. -/
theorem C6_enqueue_front_dequeue_back_order (s : arraylist_t) (es : List Ptr)
    (hwf : well_formed s) (hempty : s.size = 0) (hcap : es.length ≤ s.capacity)
    (hnn : ∀ e ∈ es, e ≠ 0) :
    ∃ s1 s2, enqueue_front_all es s = Outcome.ok () s1 ∧
      dequeue_back_n es.length s1 = Outcome.ok es s2 ∧
      s2.size = 0 ∧ arraylist_is_empty s2 = Outcome.ok true s2 := by
  obtain ⟨s1, h1, hwf1, hc1, hl1⟩ := enqueue_front_all_live es s hwf (by omega) hnn
  have hl0 : live s = [] := by
    have := live_length s hwf
    rw [hempty] at this
    exact List.length_eq_zero.mp this
  rw [hl0, List.append_nil] at hl1
  have hsz1 : s1.size = es.length := by
    rw [← live_length s1 hwf1, hl1, List.length_reverse]
  obtain ⟨s2, h2, hwf2, hsz2, hc2, hl2⟩ := dequeue_back_n_live es.length s1 hwf1 (by omega)
  rw [hl1, List.reverse_reverse, List.take_length] at h2
  have hz : s2.size = 0 := by omega
  refine ⟨s1, s2, h1, h2, hz, ?_⟩
  simp only [arraylist_is_empty, hz, decide_True]

theorem C6_witness :
    well_formed c5_empty ∧ c5_empty.size = 0 ∧ [1, 2, 3].length ≤ c5_empty.capacity ∧
    (∀ e ∈ [1, 2, 3], e ≠ 0) ∧
    ∃ s1 s2, enqueue_front_all [1, 2, 3] c5_empty = Outcome.ok () s1 ∧
      dequeue_back_n [1, 2, 3].length s1 = Outcome.ok [1, 2, 3] s2 ∧
      s2.size = 0 ∧ arraylist_is_empty s2 = Outcome.ok true s2 :=
  ⟨(by decide), by decide, by decide, by decide,
    C6_enqueue_front_dequeue_back_order c5_empty [1, 2, 3]
      (by decide) (by decide) (by decide) (by decide)⟩

/-! ### Rejections -/

/-- Claim C7 (full-container rejection): when `size = capacity`, for every
element and every index `arraylist_add_at_index`, and with it
`arraylist_enqueue` and `arraylist_enqueue_front`, ends in `exit(1)` with the
struct exactly as it was: `size`, `capacity` and every slot are unchanged and
the capacity has not grown. -/
theorem C7_full_container_rejects_insert (s : arraylist_t) (e : Ptr) (index : Nat)
    (hfull : s.size = s.capacity) :
    arraylist_add_at_index s e index = Outcome.exit s ∧
    arraylist_enqueue s e = Outcome.exit s ∧
    arraylist_enqueue_front s e = Outcome.exit s := by
  have h : ∀ i, arraylist_add_at_index s e i = Outcome.exit s := by
    intro i
    unfold arraylist_add_at_index
    split_ifs <;> rfl
  exact ⟨h index, h _, h _⟩

theorem C7_witness :
    (∃ s1 s2, arraylist_init true (fun _ => 0) fresh_struct 2 8 = Outcome.ok () s1 ∧
      arraylist_enqueue s1 21 = Outcome.ok () s2 ∧
      arraylist_enqueue s2 22 = Outcome.ok () c7_full) ∧
    c7_full.size = c7_full.capacity ∧
    (arraylist_add_at_index c7_full 23 1 = Outcome.exit c7_full ∧
      arraylist_enqueue c7_full 23 = Outcome.exit c7_full ∧
      arraylist_enqueue_front c7_full 23 = Outcome.exit c7_full) ∧
    c7_full.size = 2 :=
  ⟨⟨_, _, rfl, rfl, rfl⟩, rfl, C7_full_container_rejects_insert c7_full 23 1 rfl, rfl⟩

/-- Claim C8 (out-of-range and empty-container rejection on removal):
`arraylist_remove_at_index` ends in `exit(1)` exactly when `index ≥ size`, and
then the struct is as it was; on a sequence an index below `size` makes the
call return normally; on an empty struct `arraylist_dequeue` and
`arraylist_remove_at_index` at `0` end in `exit(1)` with the struct
unchanged. -/
theorem C8_remove_rejects_out_of_range (s : arraylist_t) (index : Nat) :
    ((∃ s1, arraylist_remove_at_index s index = Outcome.exit s1) ↔ s.size ≤ index) ∧
    (∀ s1, arraylist_remove_at_index s index = Outcome.exit s1 → s1 = s) ∧
    (well_formed s → index < s.size →
      ∃ x s1, arraylist_remove_at_index s index = Outcome.ok x s1) ∧
    (s.size = 0 →
      arraylist_dequeue s = Outcome.exit s ∧ arraylist_remove_at_index s 0 = Outcome.exit s) := by
  have hexit : ∀ i, s.size ≤ i → arraylist_remove_at_index s i = Outcome.exit s := by
    intro i hi
    unfold arraylist_remove_at_index
    rw [if_pos (Or.inr hi)]
  have hnot : ∀ s1, index < s.size → arraylist_remove_at_index s index ≠ Outcome.exit s1 := by
    intro s1 hlt h
    unfold arraylist_remove_at_index at h
    rw [if_neg (by omega)] at h
    split at h
    · cases h
    · split at h
      · cases h
      · split at h
        · cases h
        · split at h
          · cases h
          · cases h
  refine ⟨⟨?_, fun hi => ⟨s, hexit index hi⟩⟩, ?_, ?_, ?_⟩
  · rintro ⟨s1, h⟩
    by_contra hlt
    exact hnot s1 (by omega) h
  · intro s1 h
    by_cases hi : s.size ≤ index
    · rw [hexit index hi] at h
      injection h with h
      exact h.symm
    · exact absurd h (hnot s1 (by omega))
  · intro hwf hlt
    obtain ⟨x, s1, _, h, _⟩ := remove_at_index_live s index hwf hlt
    exact ⟨x, s1, h⟩
  · intro hz
    exact ⟨hexit 0 (by omega), hexit 0 (by omega)⟩

theorem C8_witness :
    ((∃ s1, arraylist_remove_at_index c5_empty 0 = Outcome.exit s1) ↔ c5_empty.size ≤ 0) ∧
    (∀ s1, arraylist_remove_at_index c5_empty 0 = Outcome.exit s1 → s1 = c5_empty) ∧
    (well_formed c5_empty → 0 < c5_empty.size →
      ∃ x s1, arraylist_remove_at_index c5_empty 0 = Outcome.ok x s1) ∧
    (c5_empty.size = 0 →
      arraylist_dequeue c5_empty = Outcome.exit c5_empty ∧
      arraylist_remove_at_index c5_empty 0 = Outcome.exit c5_empty) :=
  C8_remove_rejects_out_of_range c5_empty 0

/-- Claim C9 (shrink guard): for every struct and every `newsize < size`,
`arraylist_resize` ends in `exit(1)` with `capacity`, `size` and all elements
exactly as they were, whatever the allocator would have answered. -/
theorem C9_resize_rejects_shrink_below_size (heap_ok : Bool) (junk : Nat → Ptr)
    (s : arraylist_t) (newsize : Nat) (hlt : newsize < s.size) :
    arraylist_resize heap_ok junk s newsize = Outcome.exit s := by
  unfold arraylist_resize
  split
  · rfl
  · rw [if_pos hlt]

theorem C9_witness :
    (∃ s0, arraylist_init true (fun _ => 0) fresh_struct 5 8 = Outcome.ok () s0 ∧
      enqueue_all [31, 32, 33] s0 = Outcome.ok () c9_state) ∧
    2 < c9_state.size ∧
    arraylist_resize true (fun _ => 0) c9_state 2 = Outcome.exit c9_state ∧
    c9_state.capacity = 5 ∧ c9_state.size = 3 :=
  ⟨⟨_, rfl, rfl⟩, by decide,
    C9_resize_rejects_shrink_below_size true (fun _ => 0) c9_state 2 (by decide), rfl, rfl⟩

/-! ### Resizing -/

/-- A resize that is let through with a succeeding allocator: the new block
holds as many whole slots as the requested byte count gives, and keeps the old
contents of the slots that both blocks have. -/
theorem resize_ok (heap_ok : Bool) (junk : Nat → Ptr) (s : arraylist_t) (buf : List Ptr)
    (newsize : Nat) (hbuf : s.elements = some buf) (hge : s.size ≤ newsize)
    (hheap : heap_ok = true) :
    ∃ buf1, arraylist_resize heap_ok junk s newsize =
        Outcome.ok () { s with elements := some buf1, capacity := newsize } ∧
      buf1.length = u64 (newsize * s.element_size) / sizeof_ptr ∧
      ∀ j, j < u64 (newsize * s.element_size) / sizeof_ptr → j < buf.length →
        buf1[j]? = buf[j]? := by
  subst hheap
  refine ⟨buf.take (u64 (newsize * s.element_size) / sizeof_ptr) ++
    (List.range (u64 (newsize * s.element_size) / sizeof_ptr - buf.length)).map
      (fun k => junk (buf.length + k)), ?_, ?_, ?_⟩
  · simp only [arraylist_resize, hbuf, realloc, if_true, if_neg (Nat.not_lt.mpr hge)]
  · simp only [List.length_append, List.length_take, List.length_map, List.length_range]
    omega
  · intro j h1 h2
    rw [List.getElem?_append_left (by simp only [List.length_take]; omega),
      List.getElem?_take, if_pos h1]

/-- Claim C10 (resize postcondition), evaluated where the code departs from
it.  The struct `c10_state` is what `arraylist_init` with capacity 4 and
element width 1 followed by three `arraylist_enqueue` calls produces.  On it
`arraylist_resize` to capacity 4 with a succeeding allocator returns normally,
but `realloc` was asked for `4 * 1` bytes, so the new block holds no whole
slot: slot 0, which held the first element, is gone and the next
`arraylist_dequeue` reads outside the block.  With a failing allocator the
call ends in `exit(1)` after the `elements` field has been overwritten with
`NULL`. -/
theorem C10_resize_loses_live_elements :
    (∃ s0, arraylist_init true (fun _ => 0) fresh_struct 4 1 = Outcome.ok () s0 ∧
      enqueue_all [41, 42, 43] s0 = Outcome.ok () c10_state) ∧
    c10_state.size ≤ 4 ∧
    arraylist_resize true (fun _ => 0) c10_state 4 =
      Outcome.ok () { c10_state with elements := some [] } ∧
    slot c10_state 0 = some 41 ∧
    slot { c10_state with elements := some [] } 0 = none ∧
    arraylist_dequeue { c10_state with elements := some [] } = Outcome.ub ∧
    arraylist_resize false (fun _ => 0) c10_state 4 =
      Outcome.exit { c10_state with elements := none } :=
  ⟨⟨_, rfl, rfl⟩, by decide, rfl, rfl, rfl, rfl, rfl⟩

/-! ### Swapping -/

/-- A swap of two distinct positions below `size`: the outcome and the new block. -/
theorem swap_ok (s : arraylist_t) (buf : List Ptr) (i j : Nat)
    (hbuf : s.elements = some buf) (hlen : s.size ≤ buf.length)
    (hi : i < s.size) (hj : j < s.size) (hne : i ≠ j) :
    ∃ a b, buf[i]? = some a ∧ buf[j]? = some b ∧
      arraylist_swap s i j = Outcome.ok () { s with elements := some ((buf.set i b).set j a) } := by
  have hi1 : i < buf.length := by omega
  have hj1 : j < buf.length := by omega
  have hj2 : j < (buf.set i buf[j]).length := by simpa using hj1
  refine ⟨buf[i], buf[j], List.getElem?_eq_getElem hi1, List.getElem?_eq_getElem hj1, ?_⟩
  have hg : ¬ (i < 0 ∨ j < 0 ∨ i ≥ s.size ∨ j ≥ s.size) := by omega
  simp only [arraylist_swap, hg, hne, hbuf, load, store, List.getElem?_eq_getElem hi1,
    List.getElem?_eq_getElem hj1, hi1, hj2, if_true, if_false]

/-- The block after the two writes of a swap, slot by slot. -/
theorem swap_buf_get (buf : List Ptr) (i j : Nat) (a b : Ptr)
    (hi : i < buf.length) (hj : j < buf.length) (k : Nat) :
    ((buf.set i b).set j a)[k]? =
      if k = j then some a else if k = i then some b else buf[k]? := by
  rw [List.getElem?_set, List.getElem?_set, List.length_set]
  by_cases c1 : k = j
  · subst c1
    simp [hj]
  · by_cases c2 : k = i
    · subst c2
      simp [c1, Ne.symm c1, hi]
    · simp [c1, c2, Ne.symm c1, Ne.symm c2]

/-- A swap with an index at or past `size` ends in `exit(1)` on the untouched struct. -/
theorem swap_exit (s : arraylist_t) (i j : Nat) (h : s.size ≤ i ∨ s.size ≤ j) :
    arraylist_swap s i j = Outcome.exit s := by
  have hg : i < 0 ∨ j < 0 ∨ i ≥ s.size ∨ j ≥ s.size := by omega
  simp only [arraylist_swap, hg, if_true]

/-- Claim C11 (Swap, `arraylist_swap`): on a sequence, for indices `i, j < size`
the call returns normally; afterwards slot `i` holds what slot `j` held, slot
`j` holds what slot `i` held, every other slot is unchanged, `size` and
`capacity` are unchanged, and the struct is untouched when `i = j`.  When
`i ≥ size` or `j ≥ size` the call ends in `exit(1)` with the struct as it
was. -/
theorem C11_swap_exchanges_two_slots (s : arraylist_t) (i j : Nat) :
    (well_formed s → i < s.size → j < s.size →
      ∃ s1, arraylist_swap s i j = Outcome.ok () s1 ∧
        slot s1 i = slot s j ∧ slot s1 j = slot s i ∧
        (∀ k, k ≠ i → k ≠ j → slot s1 k = slot s k) ∧
        s1.size = s.size ∧ s1.capacity = s.capacity ∧ (i = j → s1 = s)) ∧
    (s.size ≤ i ∨ s.size ≤ j → arraylist_swap s i j = Outcome.exit s) := by
  refine ⟨fun hwf hi hj => ?_, swap_exit s i j⟩
  obtain ⟨_, hle, buf, hbuf, hlen⟩ := well_formed_elim hwf
  by_cases hne : i = j
  · subst hne
    refine ⟨s, ?_, rfl, rfl, fun _ _ _ => rfl, rfl, rfl, fun _ => rfl⟩
    have hg : ¬ (i < 0 ∨ i < 0 ∨ i ≥ s.size ∨ i ≥ s.size) := by omega
    simp only [arraylist_swap, hg, if_true, if_false]
  · obtain ⟨a, b, ha, hb, hr⟩ := swap_ok s buf i j hbuf (by omega) hi hj hne
    have hi1 : i < buf.length := by omega
    have hj1 : j < buf.length := by omega
    refine ⟨_, hr, ?_, ?_, ?_, rfl, rfl, fun h => absurd h hne⟩
    · simp only [slot, hbuf]
      rw [swap_buf_get buf i j a b hi1 hj1 i, if_neg hne, if_pos rfl, hb]
    · simp only [slot, hbuf]
      rw [swap_buf_get buf i j a b hi1 hj1 j, if_pos rfl, ha]
    · intro k hki hkj
      simp only [slot, hbuf]
      rw [swap_buf_get buf i j a b hi1 hj1 k, if_neg hkj, if_neg hki]

theorem C11_witness :
    (∃ s1, arraylist_swap abcd_state 0 2 = Outcome.ok () s1 ∧
        slot s1 0 = slot abcd_state 2 ∧ slot s1 2 = slot abcd_state 0 ∧
        (∀ k, k ≠ 0 → k ≠ 2 → slot s1 k = slot abcd_state k) ∧
        s1.size = abcd_state.size ∧ s1.capacity = abcd_state.capacity ∧
        ((0 : Nat) = 2 → s1 = abcd_state)) ∧
    arraylist_swap abcd_state 0 4 = Outcome.exit abcd_state :=
  ⟨(C11_swap_exchanges_two_slots abcd_state 0 2).1 (by decide) (by decide) (by decide),
    (C11_swap_exchanges_two_slots abcd_state 0 4).2 (Or.inr (by decide))⟩

/-- Claim C12 (a swap undoes itself): on a sequence, for indices `i, j < size`,
two calls of `arraylist_swap` with the same indices both return normally and
leave the struct exactly as it was before the first: every slot, `size` and
`capacity`. -/
theorem C12_swap_twice_restores (s : arraylist_t) (i j : Nat)
    (hwf : well_formed s) (hi : i < s.size) (hj : j < s.size) :
    ∃ s1, arraylist_swap s i j = Outcome.ok () s1 ∧
      arraylist_swap s1 i j = Outcome.ok () s := by
  obtain ⟨_, hle, buf, hbuf, hlen⟩ := well_formed_elim hwf
  by_cases hne : i = j
  · subst hne
    have hg : ¬ (i < 0 ∨ i < 0 ∨ i ≥ s.size ∨ i ≥ s.size) := by omega
    refine ⟨s, ?_, ?_⟩ <;> simp only [arraylist_swap, hg, if_true, if_false]
  · obtain ⟨a, b, ha, hb, hr⟩ := swap_ok s buf i j hbuf (by omega) hi hj hne
    have hi1 : i < buf.length := by omega
    have hj1 : j < buf.length := by omega
    obtain ⟨a2, b2, ha2, hb2, hr2⟩ :=
      swap_ok { s with elements := some ((buf.set i b).set j a) } ((buf.set i b).set j a) i j rfl
        (by simp only [List.length_set]; omega) hi hj hne
    refine ⟨_, hr, ?_⟩
    rw [hr2]
    have hback : (((buf.set i b).set j a).set i b2).set j a2 = buf := by
      rw [swap_buf_get buf i j a b hi1 hj1 i, if_neg hne, if_pos rfl] at ha2
      rw [swap_buf_get buf i j a b hi1 hj1 j, if_pos rfl] at hb2
      cases ha2
      cases hb2
      apply List.ext_getElem?
      intro k
      rw [swap_buf_get ((buf.set i b).set j a) i j b a (by simpa using hi1) (by simpa using hj1) k]
      by_cases c1 : k = j
      · subst c1
        rw [if_pos rfl, hb]
      · rw [if_neg c1]
        by_cases c2 : k = i
        · subst c2
          rw [if_pos rfl, ha]
        · rw [if_neg c2, swap_buf_get buf i j a b hi1 hj1 k, if_neg c1, if_neg c2]
    rw [hback, ← hbuf]

theorem C12_witness :
    well_formed abcd_state ∧ 0 < abcd_state.size ∧ 2 < abcd_state.size ∧
    ∃ s1, arraylist_swap abcd_state 0 2 = Outcome.ok () s1 ∧
      arraylist_swap s1 0 2 = Outcome.ok () abcd_state :=
  ⟨by decide, by decide, by decide,
    C12_swap_twice_restores abcd_state 0 2 (by decide) (by decide) (by decide)⟩

/-! ### Moving an element -/

/-- Taking an element out of a list and putting it back at the same position. -/
theorem take_erase_cons_drop (l : List Ptr) (i : Nat) (x : Ptr) (h : l[i]? = some x) :
    (l.eraseIdx i).take i ++ x :: (l.eraseIdx i).drop i = l := by
  induction l generalizing i with
  | nil => cases h
  | cons a t ih =>
    cases i with
    | zero =>
      simp only [List.getElem?_cons_zero, Option.some.injEq] at h
      subst h
      simp
    | succ n =>
      simp only [List.getElem?_cons_succ] at h
      simp only [List.eraseIdx_cons_succ, List.take_succ_cons, List.drop_succ_cons,
        List.cons_append, ih n h]

/-- Erasing the element just put into a list gives the list back. -/
theorem erase_take_cons_drop (m : List Ptr) (j : Nat) (x : Ptr) (h : j ≤ m.length) :
    (m.take j ++ x :: m.drop j).eraseIdx j = m := by
  induction m generalizing j with
  | nil =>
    have : j = 0 := by simpa using h
    subst this
    simp
  | cons a t ih =>
    cases j with
    | zero => simp
    | succ n =>
      simp only [List.length_cons, Nat.add_le_add_iff_right] at h
      simp only [List.take_succ_cons, List.drop_succ_cons, List.cons_append,
        List.eraseIdx_cons_succ, ih n h]

/-- The element put into a list is found at the position it was put. -/
theorem get_take_cons_drop (m : List Ptr) (j : Nat) (x : Ptr) (h : j ≤ m.length) :
    (m.take j ++ x :: m.drop j)[j]? = some x := by
  rw [List.getElem?_append_right (by simp only [List.length_take]; omega)]
  simp only [List.length_take, Nat.min_eq_left h, Nat.sub_self, List.getElem?_cons_zero]

/-- A move between two distinct positions of a sequence with non-null live
elements, seen on the live elements. -/
theorem move_to_index_live (s : arraylist_t) (cur new : Nat)
    (hwf : well_formed s) (hnn : ∀ x ∈ live s, x ≠ 0)
    (hcur : cur < s.size) (hnew : new < s.size) (hne : cur ≠ new) :
    ∃ x s1 s2, (live s)[cur]? = some x ∧
      arraylist_remove_at_index s cur = Outcome.ok x s1 ∧
      arraylist_add_at_index s1 x new = Outcome.ok () s2 ∧
      arraylist_move_to_index s cur new = Outcome.ok () s2 ∧
      well_formed s2 ∧ s2.size = s.size ∧ s2.capacity = s.capacity ∧
      live s2 = ((live s).eraseIdx cur).take new ++ x :: ((live s).eraseIdx cur).drop new := by
  obtain ⟨_, hle, _⟩ := well_formed_elim hwf
  obtain ⟨x, s1, hx, h1, hwf1, hsz1, hc1, hl1⟩ := remove_at_index_live s cur hwf hcur
  have hx0 : x ≠ 0 := hnn x (List.getElem?_mem hx)
  obtain ⟨s2, h2, hwf2, hsz2, hc2, hl2⟩ :=
    add_at_index_live s1 x new hwf1 (by omega) (by omega) hx0
  refine ⟨x, s1, s2, hx, h1, h2, ?_, hwf2, by omega, by omega, ?_⟩
  · have hg : ¬ (cur < 0 ∨ new < 0 ∨ cur ≥ s.size ∨ new ≥ s.size) := by omega
    simp only [arraylist_move_to_index, hg, hne, h1, h2, if_false]
  · rw [hl2, hl1]

/-- Claim C13 (MoveToIndex relocation): on a sequence whose live slots hold
non-null elements, for indices `cur, new < size` the call returns normally and
the live elements are those obtained by deleting the element `x` at position
`cur` and putting `x` at position `new` of the remainder; `size` and `capacity`
are unchanged, `x` is at position `new`, the other elements keep their
relative order, and the struct is untouched when `cur = new`. -/
theorem C13_move_to_index_relocates (s : arraylist_t) (cur new : Nat)
    (hwf : well_formed s) (hnn : ∀ x ∈ live s, x ≠ 0)
    (hcur : cur < s.size) (hnew : new < s.size) :
    ∃ x s1, (live s)[cur]? = some x ∧
      arraylist_move_to_index s cur new = Outcome.ok () s1 ∧
      live s1 = ((live s).eraseIdx cur).take new ++ x :: ((live s).eraseIdx cur).drop new ∧
      s1.size = s.size ∧ s1.capacity = s.capacity ∧
      (live s1)[new]? = some x ∧
      (live s1).eraseIdx new = (live s).eraseIdx cur ∧
      (cur = new → s1 = s) := by
  have hlen := live_length s hwf
  have hnl : new ≤ ((live s).eraseIdx cur).length := by
    rw [List.length_eraseIdx, if_pos (by omega)]
    omega
  by_cases hne : cur = new
  · subst hne
    have hc : cur < (live s).length := by omega
    have hx : (live s)[cur]? = some (live s)[cur] := List.getElem?_eq_getElem hc
    have hl := take_erase_cons_drop (live s) cur _ hx
    have hg : ¬ (cur < 0 ∨ cur < 0 ∨ cur ≥ s.size ∨ cur ≥ s.size) := by omega
    refine ⟨(live s)[cur], s, hx, ?_, hl.symm, rfl, rfl, hx, rfl, fun _ => rfl⟩
    simp only [arraylist_move_to_index, hg, if_true, if_false]
  · obtain ⟨x, s1, s2, hx, _, _, hm, _, hsz, hc, hl⟩ :=
      move_to_index_live s cur new hwf hnn hcur hnew hne
    refine ⟨x, s2, hx, hm, hl, hsz, hc, ?_, ?_, fun h => absurd h hne⟩
    · rw [hl]
      exact get_take_cons_drop _ new x hnl
    · rw [hl]
      exact erase_take_cons_drop _ new x hnl

theorem C13_witness :
    well_formed abcd_state ∧ (∀ x ∈ live abcd_state, x ≠ 0) ∧
    0 < abcd_state.size ∧ 2 < abcd_state.size ∧
    arraylist_move_to_index abcd_state 0 2 =
      Outcome.ok () { abcd_state with elements := some [2, 3, 1, 4] } ∧
    ∃ x s1, (live abcd_state)[0]? = some x ∧
      arraylist_move_to_index abcd_state 0 2 = Outcome.ok () s1 ∧
      live s1 = ((live abcd_state).eraseIdx 0).take 2 ++
        x :: ((live abcd_state).eraseIdx 0).drop 2 ∧
      s1.size = abcd_state.size ∧ s1.capacity = abcd_state.capacity ∧
      (live s1)[2]? = some x ∧
      (live s1).eraseIdx 2 = (live abcd_state).eraseIdx 0 ∧
      ((0 : Nat) = 2 → s1 = abcd_state) :=
  ⟨by decide, by decide, by decide, by decide, by decide,
    C13_move_to_index_relocates abcd_state 0 2 (by decide) (by decide) (by decide)
      (by decide)⟩

/-- Below `size`, a slot of the buffer is an entry of the live elements. -/
theorem slot_eq_live (s : arraylist_t) (k : Nat) (hk : k < s.size) :
    slot s k = (live s)[k]? := by
  unfold slot live
  cases s.elements with
  | none => rfl
  | some buf => simp only [List.getElem?_take, if_pos hk]

/-- Members of a list with one element put in are that element or members of the list. -/
theorem mem_take_cons_drop (m : List Ptr) (j : Nat) (x y : Ptr)
    (h : y ∈ m.take j ++ x :: m.drop j) : y = x ∨ y ∈ m := by
  rcases List.mem_append.mp h with h1 | h1
  · exact Or.inr (List.mem_of_mem_take h1)
  · rcases List.mem_cons.mp h1 with h2 | h2
    · exact Or.inl h2
    · exact Or.inr (List.mem_of_mem_drop h2)

/-- Claim C20 (a move is undone by the reverse move): on a sequence whose live
slots hold non-null elements, for indices `i, j < size`,
`arraylist_move_to_index` from `i` to `j` followed by
`arraylist_move_to_index` from `j` to `i` both return normally and restore the
original `size`, `capacity` and element at every position below `size`. -/
theorem C20_move_back_restores (s : arraylist_t) (i j : Nat)
    (hwf : well_formed s) (hnn : ∀ x ∈ live s, x ≠ 0)
    (hi : i < s.size) (hj : j < s.size) :
    ∃ s1 s2, arraylist_move_to_index s i j = Outcome.ok () s1 ∧
      arraylist_move_to_index s1 j i = Outcome.ok () s2 ∧
      s2.size = s.size ∧ s2.capacity = s.capacity ∧
      (∀ k, k < s.size → slot s2 k = slot s k) ∧
      live s2 = live s := by
  by_cases hne : i = j
  · subst hne
    have hg : ¬ (i < 0 ∨ i < 0 ∨ i ≥ s.size ∨ i ≥ s.size) := by omega
    have hm : arraylist_move_to_index s i i = Outcome.ok () s := by
      simp only [arraylist_move_to_index, hg, if_true, if_false]
    exact ⟨s, s, hm, hm, rfl, rfl, fun _ _ => rfl, rfl⟩
  · have hlen := live_length s hwf
    have hjl : j ≤ ((live s).eraseIdx i).length := by
      rw [List.length_eraseIdx, if_pos (by omega)]
      omega
    obtain ⟨x, _, s1, hx, _, _, hm1, hwf1, hsz1, hc1, hl1⟩ :=
      move_to_index_live s i j hwf hnn hi hj hne
    have hnn1 : ∀ y ∈ live s1, y ≠ 0 := by
      intro y hy
      rw [hl1] at hy
      rcases mem_take_cons_drop _ j x y hy with h | h
      · rw [h]
        exact hnn x (List.getElem?_mem hx)
      · exact hnn y (List.mem_of_mem_eraseIdx h)
    obtain ⟨x2, _, s2, hx2, _, _, hm2, hwf2, hsz2, hc2, hl2⟩ :=
      move_to_index_live s1 j i hwf1 hnn1 (by omega) (by omega) (fun h => hne h.symm)
    have hxx : x2 = x := by
      rw [hl1, get_take_cons_drop _ j x hjl] at hx2
      exact (Option.some.inj hx2).symm
    have hlive : live s2 = live s := by
      rw [hl2, hxx, hl1, erase_take_cons_drop _ j x hjl]
      exact take_erase_cons_drop (live s) i x hx
    refine ⟨s1, s2, hm1, hm2, by omega, by omega, ?_, hlive⟩
    intro k hk
    rw [slot_eq_live s2 k (by omega), slot_eq_live s k hk, hlive]

theorem C20_witness :
    well_formed abcd_state ∧ (∀ x ∈ live abcd_state, x ≠ 0) ∧
    0 < abcd_state.size ∧ 2 < abcd_state.size ∧
    ∃ s1 s2, arraylist_move_to_index abcd_state 0 2 = Outcome.ok () s1 ∧
      arraylist_move_to_index s1 2 0 = Outcome.ok () s2 ∧
      s2.size = abcd_state.size ∧ s2.capacity = abcd_state.capacity ∧
      (∀ k, k < abcd_state.size → slot s2 k = slot abcd_state k) ∧
      live s2 = live abcd_state :=
  ⟨by decide, by decide, by decide, by decide,
    C20_move_back_restores abcd_state 0 2 (by decide) (by decide) (by decide) (by decide)⟩

/-! ### Searching -/

/-- The scan of `arraylist_contains` over `k` slots from slot `i` on, all inside
the block: it answers whether the element is among those slots. -/
theorem contains_scan_spec (buf : List Ptr) (e : Ptr) : ∀ (k i : Nat), i + k ≤ buf.length →
    contains_scan (some buf) e k i = some (decide (e ∈ (buf.drop i).take k)) := by
  intro k
  induction k with
  | zero =>
    intro i _
    simp [contains_scan]
  | succ k ih =>
    intro i h
    have hi : i < buf.length := by omega
    have hd : buf.drop i = buf[i] :: buf.drop (i + 1) := List.drop_eq_getElem_cons hi
    simp only [contains_scan, load, List.getElem?_eq_getElem hi, hd, List.take_succ_cons,
      List.mem_cons]
    by_cases c : buf[i] = e
    · rw [if_pos c]
      simp [c]
    · rw [if_neg c, ih (i + 1) (by omega)]
      have c1 : ¬ e = buf[i] := fun h => c h.symm
      simp [c1]

/-- The outcome of `arraylist_contains` on a struct whose block holds `size` slots. -/
theorem contains_ok (s : arraylist_t) (buf : List Ptr) (e : Ptr)
    (hbuf : s.elements = some buf) (hlen : s.size ≤ buf.length) (he : e ≠ 0) :
    arraylist_contains s e = Outcome.ok (decide (e ∈ live s)) s := by
  have h := contains_scan_spec buf e s.size 0 (by omega)
  simp only [List.drop_zero] at h
  simp only [arraylist_contains, he, hbuf, h, live, if_false]

/-- An element of a list with position `i` erased sits at another position of the list. -/
theorem mem_eraseIdx_elsewhere (l : List Ptr) (i : Nat) (y : Ptr) (h : y ∈ l.eraseIdx i) :
    ∃ k, k ≠ i ∧ l[k]? = some y := by
  obtain ⟨n, hn⟩ := List.getElem?_of_mem h
  rw [List.getElem?_eraseIdx] at hn
  by_cases c : n < i
  · rw [if_pos c] at hn
    exact ⟨n, by omega, hn⟩
  · rw [if_neg c] at hn
    exact ⟨n + 1, by omega, hn⟩

/-- Claim C14 (Contains correctness): on a sequence and for a non-null element
`e`, `arraylist_contains` returns normally, leaves the struct as it was, and
answers true exactly when some slot at an index below `size` holds `e` (the
answer is a function of the live elements alone).  It answers false when the
sequence is empty, in particular on the struct `arraylist_init` has just set
up, and it answers false for `e` right after `arraylist_remove_at_index`
returned `e` from the only slot that held it. -/
theorem C14_contains_iff_live_slot (s : arraylist_t) (e : Ptr)
    (hwf : well_formed s) (he : e ≠ 0) :
    arraylist_contains s e = Outcome.ok (decide (e ∈ live s)) s ∧
    (arraylist_contains s e = Outcome.ok true s ↔ ∃ j, j < s.size ∧ slot s j = some e) ∧
    (s.size = 0 → arraylist_contains s e = Outcome.ok false s) ∧
    (∀ (heap_ok : Bool) (junk : Nat → Ptr) (s0 t : arraylist_t) (capacity element_size : Nat),
      0 < capacity → 0 < element_size →
      arraylist_init heap_ok junk s0 capacity element_size = Outcome.ok () t →
      arraylist_contains t e = Outcome.ok false t) ∧
    (∀ (index : Nat) (s1 : arraylist_t),
      arraylist_remove_at_index s index = Outcome.ok e s1 →
      (∀ j, j < s.size → j ≠ index → slot s j ≠ some e) →
      arraylist_contains s1 e = Outcome.ok false s1) := by
  obtain ⟨_, hle, buf, hbuf, hlen⟩ := well_formed_elim hwf
  have hc := contains_ok s buf e hbuf (by omega) he
  have hiff : e ∈ live s ↔ ∃ j, j < s.size ∧ slot s j = some e := by
    constructor
    · intro hm
      obtain ⟨n, hn⟩ := List.getElem?_of_mem hm
      have hlt : n < s.size := by
        have h1 := (List.getElem?_eq_some.mp hn).1
        rw [live_length s hwf] at h1
        exact h1
      exact ⟨n, hlt, by rw [slot_eq_live s n hlt, hn]⟩
    · rintro ⟨j, hj, hs⟩
      rw [slot_eq_live s j hj] at hs
      exact List.getElem?_mem hs
  refine ⟨hc, ?_, ?_, ?_, ?_⟩
  · rw [hc, ← hiff]
    constructor
    · intro h
      injection h with h1 _
      exact of_decide_eq_true h1
    · intro h
      rw [decide_eq_true h]
  · intro hz
    have hl : live s = [] := by
      apply List.length_eq_zero.mp
      rw [live_length s hwf, hz]
    rw [hc, hl]
    rfl
  · intro heap_ok junk s0 t capacity element_size hcap hes hinit
    obtain ⟨b, ht⟩ := init_ok_inv hcap hes hinit
    subst ht
    simp only [arraylist_contains, he, contains_scan, if_false]
  · intro index s1 hrem hothers
    obtain ⟨hidx, _⟩ := remove_at_index_inv hrem
    obtain ⟨x, s2, _, hr, hwf2, _, _, hl2⟩ := remove_at_index_live s index hwf hidx
    rw [hrem] at hr
    injection hr with _ hs
    subst hs
    obtain ⟨_, hle1, buf1, hbuf1, hlen1⟩ := well_formed_elim hwf2
    rw [contains_ok s1 buf1 e hbuf1 (by omega) he]
    have hno : e ∉ live s1 := by
      intro hm
      rw [hl2] at hm
      obtain ⟨k, hk, hget⟩ := mem_eraseIdx_elsewhere (live s) index e hm
      have hlt : k < s.size := by
        have h1 := (List.getElem?_eq_some.mp hget).1
        rw [live_length s hwf] at h1
        exact h1
      exact hothers k hlt hk (by rw [slot_eq_live s k hlt, hget])
    rw [decide_eq_false hno]

theorem C14_witness :
    well_formed abcd_state ∧ (3 : Ptr) ≠ 0 ∧
    arraylist_contains abcd_state 3 = Outcome.ok true abcd_state ∧
    arraylist_contains abcd_state 9 = Outcome.ok false abcd_state ∧
    (arraylist_contains abcd_state 3 = Outcome.ok (decide (3 ∈ live abcd_state)) abcd_state ∧
    (arraylist_contains abcd_state 3 = Outcome.ok true abcd_state ↔
      ∃ j, j < abcd_state.size ∧ slot abcd_state j = some 3) ∧
    (abcd_state.size = 0 → arraylist_contains abcd_state 3 = Outcome.ok false abcd_state) ∧
    (∀ (heap_ok : Bool) (junk : Nat → Ptr) (s0 t : arraylist_t) (capacity element_size : Nat),
      0 < capacity → 0 < element_size →
      arraylist_init heap_ok junk s0 capacity element_size = Outcome.ok () t →
      arraylist_contains t 3 = Outcome.ok false t) ∧
    (∀ (index : Nat) (s1 : arraylist_t),
      arraylist_remove_at_index abcd_state index = Outcome.ok 3 s1 →
      (∀ j, j < abcd_state.size → j ≠ index → slot abcd_state j ≠ some 3) →
      arraylist_contains s1 3 = Outcome.ok false s1)) :=
  ⟨by decide, by decide, by decide, by decide,
    C14_contains_iff_live_slot abcd_state 3 (by decide) (by decide)⟩

/-! ### The queue operations and the primitives -/

/-- Claim C15 (the queue operations are the primitives): for every struct whose
`size` is a `uint64_t` value and every element, `arraylist_enqueue` has the
outcome of `InsertAt(e, size)`, `arraylist_enqueue_front` that of
`InsertAt(e, 0)`, `arraylist_dequeue` that of `RemoveAt(0)` and
`arraylist_dequeue_back` that of `RemoveAt(size - 1)`; when `size` is zero the
index `size - 1` is `2 ^ 64 - 1` and `arraylist_dequeue_back` ends in `exit(1)`
with the struct as it was. -/
theorem C15_queue_operations_are_primitives (s : arraylist_t) (e : Ptr)
    (h64 : s.size < 2 ^ 64) :
    arraylist_enqueue s e = spec_push_back s e ∧
    arraylist_enqueue_front s e = spec_push_front s e ∧
    arraylist_dequeue s = spec_pop_front s ∧
    arraylist_dequeue_back s = spec_pop_back s ∧
    (s.size = 0 → u64_sub s.size 1 = 2 ^ 64 - 1 ∧ arraylist_dequeue_back s = Outcome.exit s) := by
  have hidx : u64_sub s.size 1 = if s.size = 0 then 2 ^ 64 - 1 else s.size - 1 := by
    by_cases hz : s.size = 0
    · rw [if_pos hz, hz]
      rfl
    · rw [if_neg hz]
      exact u64_sub_one s.size (by omega) h64
  refine ⟨rfl, rfl, rfl, ?_, ?_⟩
  · unfold arraylist_dequeue_back spec_pop_back
    rw [hidx]
  · intro hz
    have h1 : u64_sub s.size 1 = 2 ^ 64 - 1 := by rw [hidx, if_pos hz]
    refine ⟨h1, ?_⟩
    unfold arraylist_dequeue_back arraylist_remove_at_index
    rw [h1, if_pos (Or.inr (by omega))]

theorem C15_witness :
    c5_empty.size < 2 ^ 64 ∧
    (arraylist_enqueue c5_empty 7 = spec_push_back c5_empty 7 ∧
    arraylist_enqueue_front c5_empty 7 = spec_push_front c5_empty 7 ∧
    arraylist_dequeue c5_empty = spec_pop_front c5_empty ∧
    arraylist_dequeue_back c5_empty = spec_pop_back c5_empty ∧
    (c5_empty.size = 0 →
      u64_sub c5_empty.size 1 = 2 ^ 64 - 1 ∧
      arraylist_dequeue_back c5_empty = Outcome.exit c5_empty)) ∧
    arraylist_dequeue_back abcd_state = arraylist_remove_at_index abcd_state 3 :=
  ⟨by decide, C15_queue_operations_are_primitives c5_empty 7 (by decide), by decide⟩

/-! ### Initialisation -/

/-- The struct `arraylist_init` sets up holds `capacity` slots when the byte
count `capacity * 8` does not wrap. -/
theorem init_well_formed {heap_ok : Bool} {junk : Nat → Ptr} {s0 s : arraylist_t}
    {capacity element_size : Nat} (hcap : 0 < capacity) (hes : 0 < element_size)
    (hsmall : capacity < 2 ^ 61)
    (h : arraylist_init heap_ok junk s0 capacity element_size = Outcome.ok () s) :
    well_formed s ∧ s.size = 0 := by
  unfold arraylist_init at h
  rw [if_neg (by omega), if_neg (by omega)] at h
  unfold malloc at h
  cases heap_ok with
  | false => simp at h
  | true =>
    simp only [if_true] at h
    injection h with _ hs
    subst hs
    refine ⟨well_formed_intro _ _ rfl ?_ (Nat.zero_le _) ?_, rfl⟩
    · simp only [List.length_map, List.length_range, u64, sizeof_uint64, sizeof_ptr]
      norm_num at hsmall ⊢
      omega
    · show capacity < 2 ^ 64
      norm_num at hsmall ⊢
      omega

/-- Claim C17 (Initialize, `arraylist_init`): for a positive capacity and a
positive element width, when the allocator succeeds the call returns normally
with a struct that has a buffer, `size` 0 (so `arraylist_is_empty` answers
true), `capacity` equal to the requested capacity and `element_size` equal to
the given width; the buffer holds `capacity` slots when `capacity * 8` fits in
64 bits.  For capacity 0 the call returns normally and leaves every field of
the struct as it was. -/
theorem C17_init_sets_up_empty_sequence (junk : Nat → Ptr) (s0 : arraylist_t)
    (capacity element_size : Nat) :
    (0 < capacity → 0 < element_size →
      ∃ s, arraylist_init true junk s0 capacity element_size = Outcome.ok () s ∧
        s.size = 0 ∧ s.capacity = capacity ∧ s.element_size = element_size ∧
        s.elements ≠ none ∧
        arraylist_is_empty s = Outcome.ok true s ∧
        (capacity < 2 ^ 61 → well_formed s)) ∧
    (∀ heap_ok : Bool, arraylist_init heap_ok junk s0 0 element_size = Outcome.ok () s0) := by
  constructor
  · intro hcap hes
    have hinit : arraylist_init true junk s0 capacity element_size =
        Outcome.ok ()
          { elements := some ((List.range (u64 (capacity * sizeof_uint64) / sizeof_ptr)).map junk),
            size := 0, capacity := capacity, element_size := element_size } := by
      unfold arraylist_init malloc
      rw [if_neg (by omega), if_neg (by omega)]
      rfl
    refine ⟨_, hinit, rfl, rfl, rfl, ?_, rfl, ?_⟩
    · exact Option.some_ne_none _
    · intro hsmall
      exact (init_well_formed hcap hes hsmall hinit).1
  · intro heap_ok
    unfold arraylist_init
    rw [if_neg (by omega), if_pos (Or.inl rfl)]

theorem C17_witness :
    (∃ s, arraylist_init true (fun _ => 0) fresh_struct 2 8 = Outcome.ok () s ∧
        s.size = 0 ∧ s.capacity = 2 ∧ s.element_size = 8 ∧
        s.elements ≠ none ∧
        arraylist_is_empty s = Outcome.ok true s ∧
        (2 < 2 ^ 61 → well_formed s)) ∧
    arraylist_init true (fun _ => 0) fresh_struct 0 8 = Outcome.ok () fresh_struct :=
  ⟨(C17_init_sets_up_empty_sequence (fun _ => 0) fresh_struct 2 8).1 (by decide) (by decide),
    (C17_init_sets_up_empty_sequence (fun _ => 0) fresh_struct 0 8).2 true⟩

/-! ### When an insertion succeeds -/

/-- Claim C19 (exact success condition of InsertAt): on a sequence,
`arraylist_add_at_index` returns normally exactly when the element is
non-null, `index ≤ size` and `size < capacity`; a null element is rejected
whatever the index and the fill; in every other case the call ends in
`exit(1)` with the struct as it was. -/
theorem C19_add_at_index_succeeds_iff (s : arraylist_t) (e : Ptr) (index : Nat)
    (hwf : well_formed s) :
    ((∃ s1, arraylist_add_at_index s e index = Outcome.ok () s1) ↔
      (e ≠ 0 ∧ index ≤ s.size ∧ s.size < s.capacity)) ∧
    (e = 0 → arraylist_add_at_index s e index = Outcome.exit s) ∧
    (¬ (e ≠ 0 ∧ index ≤ s.size ∧ s.size < s.capacity) →
      arraylist_add_at_index s e index = Outcome.exit s) := by
  obtain ⟨_, hle, _⟩ := well_formed_elim hwf
  have hfail : ¬ (e ≠ 0 ∧ index ≤ s.size ∧ s.size < s.capacity) →
      arraylist_add_at_index s e index = Outcome.exit s := by
    intro hn
    unfold arraylist_add_at_index
    by_cases h1 : e = 0
    · rw [if_pos h1]
    · rw [if_neg h1]
      by_cases h2 : index < 0 ∨ index > s.size
      · rw [if_pos h2]
      · rw [if_neg h2]
        by_cases h3 : s.size = s.capacity
        · rw [if_pos h3]
        · exact absurd ⟨h1, by omega, by omega⟩ hn
  refine ⟨⟨?_, ?_⟩, ?_, hfail⟩
  · rintro ⟨s1, h⟩
    obtain ⟨h1, h2, h3, _⟩ := add_at_index_inv h
    exact ⟨h1, h2, by omega⟩
  · rintro ⟨h1, h2, h3⟩
    obtain ⟨s1, h, _⟩ := add_at_index_live s e index hwf h3 h2 h1
    exact ⟨s1, h⟩
  · intro h0
    exact hfail (fun h => h.1 h0)

theorem C19_witness :
    well_formed c1_state ∧
    ((∃ s1, arraylist_add_at_index c1_state 99 1 = Outcome.ok () s1) ↔
      ((99 : Ptr) ≠ 0 ∧ 1 ≤ c1_state.size ∧ c1_state.size < c1_state.capacity)) ∧
    arraylist_add_at_index c1_state 0 1 = Outcome.exit c1_state ∧
    arraylist_add_at_index c1_state 99 4 = Outcome.exit c1_state :=
  ⟨by decide, (C19_add_at_index_succeeds_iff c1_state 99 1 (by decide)).1,
    (C19_add_at_index_succeeds_iff c1_state 0 1 (by decide)).2.1 rfl,
    (C19_add_at_index_succeeds_iff c1_state 99 4 (by decide)).2.2 (by decide)⟩

/-! ### What one successful call does to the live elements -/

theorem returned_eq_some {α : Type} {o : Outcome α} {s1 : arraylist_t}
    (h : o.returned = some s1) : ∃ r, o = Outcome.ok r s1 := by
  cases o with
  | ok r s2 =>
    injection h with h
    exact ⟨r, by rw [h]⟩
  | exit s2 => cases h
  | ub => cases h

/-- A successful insertion on a sequence. -/
theorem add_returned (s s1 : arraylist_t) (e : Ptr) (i : Nat) (hwf : well_formed s)
    (h : (arraylist_add_at_index s e i).returned = some s1) :
    e ≠ 0 ∧ well_formed s1 ∧ live s1 = (live s).take i ++ e :: (live s).drop i := by
  obtain ⟨r, hr⟩ := returned_eq_some h
  obtain ⟨_, hle, _⟩ := well_formed_elim hwf
  obtain ⟨h1, h2, h3, _⟩ := add_at_index_inv hr
  obtain ⟨s2, hr2, hwf2, _, _, hl2⟩ := add_at_index_live s e i hwf (by omega) h2 h1
  rw [hr] at hr2
  injection hr2 with _ hs
  subst hs
  exact ⟨h1, hwf2, hl2⟩

/-- A successful removal on a sequence. -/
theorem remove_returned (s s1 : arraylist_t) (i : Nat) (hwf : well_formed s)
    (h : (arraylist_remove_at_index s i).returned = some s1) :
    well_formed s1 ∧ live s1 = (live s).eraseIdx i := by
  obtain ⟨r, hr⟩ := returned_eq_some h
  obtain ⟨h1, _⟩ := remove_at_index_inv hr
  obtain ⟨x, s2, _, hr2, hwf2, _, _, hl2⟩ := remove_at_index_live s i hwf h1
  rw [hr] at hr2
  injection hr2 with _ hs
  subst hs
  exact ⟨hwf2, hl2⟩

/-- A successful move on a sequence with non-null live elements. -/
theorem move_returned (s s1 : arraylist_t) (cur new : Nat) (hwf : well_formed s)
    (hnn : ∀ x ∈ live s, x ≠ 0)
    (h : (arraylist_move_to_index s cur new).returned = some s1) :
    well_formed s1 ∧ ∀ y ∈ live s1, y ∈ live s := by
  obtain ⟨r, hr⟩ := returned_eq_some h
  by_cases hg : cur < 0 ∨ new < 0 ∨ cur ≥ s.size ∨ new ≥ s.size
  · simp only [arraylist_move_to_index, hg, if_true] at hr
    cases hr
  · by_cases hne : cur = new
    · subst hne
      simp only [arraylist_move_to_index, hg, if_true, if_false] at hr
      injection hr with _ hs
      subst hs
      exact ⟨hwf, fun y hy => hy⟩
    · obtain ⟨x, _, s2, hx, _, _, hm, hwf2, _, _, hl2⟩ :=
        move_to_index_live s cur new hwf hnn (by omega) (by omega) hne
      rw [hr] at hm
      injection hm with _ hs
      subst hs
      refine ⟨hwf2, fun y hy => ?_⟩
      rw [hl2] at hy
      rcases mem_take_cons_drop _ new x y hy with h1 | h1
      · rw [h1]
        exact List.getElem?_mem hx
      · exact List.mem_of_mem_eraseIdx h1

/-- A successful swap on a sequence. -/
theorem swap_returned (s s1 : arraylist_t) (i j : Nat) (hwf : well_formed s)
    (h : (arraylist_swap s i j).returned = some s1) :
    well_formed s1 ∧ ∀ y ∈ live s1, y ∈ live s := by
  obtain ⟨r, hr⟩ := returned_eq_some h
  obtain ⟨h64, hle, buf, hbuf, hlen⟩ := well_formed_elim hwf
  by_cases hg : i < 0 ∨ j < 0 ∨ i ≥ s.size ∨ j ≥ s.size
  · simp only [arraylist_swap, hg, if_true] at hr
    cases hr
  · by_cases hne : i = j
    · subst hne
      simp only [arraylist_swap, hg, if_true, if_false] at hr
      injection hr with _ hs
      subst hs
      exact ⟨hwf, fun y hy => hy⟩
    · have hi1 : i < buf.length := by omega
      have hj1 : j < buf.length := by omega
      obtain ⟨a, b, ha, hb, hsw⟩ := swap_ok s buf i j hbuf (by omega) (by omega) (by omega) hne
      rw [hr] at hsw
      injection hsw with _ hs
      subst hs
      refine ⟨well_formed_intro _ _ rfl ?_ hle h64, fun y hy => ?_⟩
      · show s.capacity ≤ ((buf.set i b).set j a).length
        simp only [List.length_set]
        exact hlen
      · have hy1 : y ∈ ((buf.set i b).set j a).take s.size := hy
        obtain ⟨n, hn⟩ := List.getElem?_of_mem hy1
        rw [List.getElem?_take] at hn
        have hmem : ∀ k, k < s.size → ∀ z, buf[k]? = some z → z ∈ live s := by
          intro k hk z hz
          apply List.getElem?_mem
          show (live s)[k]? = some z
          simp only [live, hbuf, List.getElem?_take, if_pos hk, hz]
        by_cases hns : n < s.size
        · rw [if_pos hns, swap_buf_get buf i j a b hi1 hj1 n] at hn
          by_cases c1 : n = j
          · rw [if_pos c1] at hn
            cases hn
            exact hmem i (by omega) _ ha
          · rw [if_neg c1] at hn
            by_cases c2 : n = i
            · rw [if_pos c2] at hn
              cases hn
              exact hmem j (by omega) _ hb
            · rw [if_neg c2] at hn
              exact hmem n hns _ hn
        · rw [if_neg hns] at hn
          cases hn

/-- A successful resize of a sequence, when the byte count pays for `newsize` slots. -/
theorem resize_returned (heap_ok : Bool) (junk : Nat → Ptr) (s s1 : arraylist_t)
    (newsize : Nat) (hwf : well_formed s)
    (hfit : newsize * sizeof_ptr ≤ u64 (newsize * s.element_size))
    (h : (arraylist_resize heap_ok junk s newsize).returned = some s1) :
    well_formed s1 ∧ live s1 = live s := by
  obtain ⟨r, hr⟩ := returned_eq_some h
  obtain ⟨h64, hle, buf, hbuf, hlen⟩ := well_formed_elim hwf
  have hge : s.size ≤ newsize := by
    by_contra hlt
    simp only [arraylist_resize, hbuf, if_pos (Nat.lt_of_not_le hlt)] at hr
    cases hr
  have hheap : heap_ok = true := by
    cases heap_ok with
    | true => rfl
    | false =>
      simp only [arraylist_resize, hbuf, if_neg (Nat.not_lt.mpr hge), realloc] at hr
      cases hr
  obtain ⟨buf1, hr1, hl1, hj1⟩ := resize_ok heap_ok junk s buf newsize hbuf hge hheap
  rw [hr] at hr1
  injection hr1 with _ hs
  subst hs
  have hu : u64 (newsize * s.element_size) < 2 ^ 64 := Nat.mod_lt _ (by norm_num)
  have hslots : newsize ≤ u64 (newsize * s.element_size) / sizeof_ptr := by
    unfold sizeof_ptr at hfit ⊢
    omega
  refine ⟨well_formed_intro _ buf1 rfl ?_ hge ?_, ?_⟩
  · show newsize ≤ buf1.length
    omega
  · show newsize < 2 ^ 64
    unfold sizeof_ptr at hfit
    omega
  · show buf1.take s.size = live s
    simp only [live, hbuf]
    apply List.ext_getElem?
    intro n
    simp only [List.getElem?_take]
    by_cases c : n < s.size
    · rw [if_pos c, if_pos c, hj1 n (by omega) (by omega)]
    · rw [if_neg c, if_neg c]

/-- The outcome `arraylist_contains` leaves the struct as it was. -/
theorem contains_returned (s s1 : arraylist_t) (e : Ptr)
    (h : (arraylist_contains s e).returned = some s1) : s1 = s := by
  unfold arraylist_contains at h
  split_ifs at h
  · cases h
  · split at h
    · cases h
    · injection h with h
      exact h.symm

/-- One successful call on a sequence with non-null live elements leaves such a
sequence, and every live element afterwards was live before or is the non-null
element the call inserted. -/
theorem run_live (op : Op) (s s1 : arraylist_t) (hwf : well_formed s)
    (hnn : ∀ x ∈ live s, x ≠ 0) (hfit : op.fits s) (h : op.run s = some s1) :
    well_formed s1 ∧ ∀ y ∈ live s1, y ∈ live s ∨ (y ∈ op.inserted ∧ y ≠ 0) := by
  have hadd : ∀ (e : Ptr) (i : Nat), (arraylist_add_at_index s e i).returned = some s1 →
      well_formed s1 ∧ ∀ y ∈ live s1, y ∈ live s ∨ (y ∈ [e] ∧ y ≠ 0) := by
    intro e i h
    obtain ⟨he, hwf1, hl⟩ := add_returned s s1 e i hwf h
    refine ⟨hwf1, fun y hy => ?_⟩
    rw [hl] at hy
    rcases mem_take_cons_drop _ i e y hy with h1 | h1
    · exact Or.inr ⟨by rw [h1]; exact List.mem_singleton_self e, by rw [h1]; exact he⟩
    · exact Or.inl h1
  have hrem : ∀ (i : Nat), (arraylist_remove_at_index s i).returned = some s1 →
      well_formed s1 ∧ ∀ y ∈ live s1, y ∈ live s ∨ (y ∈ ([] : List Ptr) ∧ y ≠ 0) := by
    intro i h
    obtain ⟨hwf1, hl⟩ := remove_returned s s1 i hwf h
    refine ⟨hwf1, fun y hy => Or.inl ?_⟩
    rw [hl] at hy
    exact List.mem_of_mem_eraseIdx hy
  have hsame : s1 = s → well_formed s1 ∧
      ∀ y ∈ live s1, y ∈ live s ∨ (y ∈ ([] : List Ptr) ∧ y ≠ 0) := by
    intro hs
    subst hs
    exact ⟨hwf, fun y hy => Or.inl hy⟩
  cases op with
  | resize heap_ok junk newsize =>
    obtain ⟨hwf1, hl⟩ := resize_returned heap_ok junk s s1 newsize hwf hfit h
    exact ⟨hwf1, fun y hy => Or.inl (by rw [← hl]; exact hy)⟩
  | add_at_index e i => exact hadd e i h
  | remove_at_index i => exact hrem i h
  | enqueue e => exact hadd e _ h
  | enqueue_front e => exact hadd e _ h
  | dequeue => exact hrem _ h
  | dequeue_back => exact hrem _ h
  | move_to_index cur new =>
    obtain ⟨hwf1, hl⟩ := move_returned s s1 cur new hwf hnn h
    exact ⟨hwf1, fun y hy => Or.inl (hl y hy)⟩
  | swap i j =>
    obtain ⟨hwf1, hl⟩ := swap_returned s s1 i j hwf h
    exact ⟨hwf1, fun y hy => Or.inl (hl y hy)⟩
  | is_full =>
    apply hsame
    injection h with h
    exact h.symm
  | is_empty =>
    apply hsame
    injection h with h
    exact h.symm
  | contains e => exact hsame (contains_returned s s1 e h)

/-- Every reached struct is a sequence whose live elements are non-null and
were passed to an insertion. -/
theorem reached_live (ins : List Ptr) (s : arraylist_t) (h : Reached (2 ^ 61) ins s) :
    well_formed s ∧ ∀ x ∈ live s, x ≠ 0 ∧ x ∈ ins := by
  induction h with
  | init heap_ok junk s0 s capacity element_size hcap hsmall hes hinit =>
    obtain ⟨hwf, hz⟩ := init_well_formed hcap hes hsmall hinit
    refine ⟨hwf, fun x hx => ?_⟩
    have hl : live s = [] := by
      apply List.length_eq_zero.mp
      rw [live_length s hwf, hz]
    rw [hl] at hx
    cases hx
  | step ins s s1 op _ hfit hrun ih =>
    obtain ⟨hwf, hlive⟩ := ih
    obtain ⟨hwf1, hl1⟩ := run_live op s s1 hwf (fun x hx => (hlive x hx).1) hfit hrun
    refine ⟨hwf1, fun y hy => ?_⟩
    rcases hl1 y hy with h1 | ⟨h1, h2⟩
    · exact ⟨(hlive y h1).1, List.mem_append_right _ (hlive y h1).2⟩
    · exact ⟨h2, List.mem_append_left _ h1⟩

/-! ### Successful calls on a struct whose buffer holds `size` slots -/

theorem has_room_elim {s : arraylist_t} (h : has_room s) :
    ∃ buf, s.elements = some buf ∧ s.size ≤ buf.length := by
  obtain ⟨h1, h2⟩ := h
  cases hb : s.elements with
  | none => exact absurd hb h1
  | some buf => exact ⟨buf, rfl, by simpa only [slots, hb] using h2⟩

theorem has_room_intro (s : arraylist_t) (buf : List Ptr) (hb : s.elements = some buf)
    (hlen : s.size ≤ buf.length) : has_room s := by
  refine ⟨?_, ?_⟩
  · rw [hb]
    exact Option.some_ne_none buf
  · simpa only [slots, hb] using hlen

/-- An element of a shorter prefix is an element of a longer one. -/
theorem mem_take_of_le (l : List Ptr) (m n : Nat) (y : Ptr) (hmn : m ≤ n)
    (h : y ∈ l.take m) : y ∈ l.take n := by
  have : l.take m = (l.take n).take m := by
    rw [List.take_take, Nat.min_eq_left hmn]
  rw [this] at h
  exact List.mem_of_mem_take h

/-- The insertion loop leaves the block when its first write does. -/
theorem add_shift_none (index : Nat) (k : Nat) (buf : List Ptr) (hk : 0 < k)
    (h : buf.length ≤ index + k) : add_shift index k buf = none := by
  cases k with
  | zero => omega
  | succ n =>
    unfold add_shift
    split
    · rfl
    · have hs : ∀ v, store buf (index + n + 1) v = none := by
        intro v
        unfold store
        rw [if_neg (by omega)]
      rw [hs]

/-- Insertion on a struct whose block has room for one more element: the
outcome and every slot of the new block. -/
theorem add_at_index_ok_room (s : arraylist_t) (buf : List Ptr) (e : Ptr) (index : Nat)
    (hbuf : s.elements = some buf) (hlen : s.size < buf.length)
    (hne : s.size ≠ s.capacity) (hidx : index ≤ s.size) (he : e ≠ 0) :
    ∃ buf2, arraylist_add_at_index s e index =
        Outcome.ok () { s with elements := some buf2, size := u64 (s.size + 1) } ∧
      buf2.length = buf.length ∧
      ∀ j, buf2[j]? = if j = index then some e
        else if index < j ∧ j ≤ s.size then buf[j - 1]? else buf[j]? := by
  obtain ⟨buf1, hb, hl, hj⟩ := add_shift_spec index (s.size - index) buf (by omega)
  have hi : index < buf1.length := by omega
  refine ⟨buf1.set index e, ?_, ?_, fun j => ?_⟩
  · have hg : ¬ (index < 0 ∨ index > s.size) := by omega
    simp only [arraylist_add_at_index, he, hg, hne, hbuf, hb, store, hi, if_true, if_false]
  · simpa using hl
  · rw [List.getElem?_set]
    by_cases c : j = index
    · subst c
      simp [hi]
    · have c1 : ¬ (index = j) := fun h => c h.symm
      rw [if_neg c1, if_neg c, hj j]
      by_cases c2 : index < j ∧ j ≤ s.size
      · rw [if_pos c2, if_pos (by omega)]
      · rw [if_neg c2, if_neg (by omega)]

/-- A successful insertion: the element is non-null, the struct keeps room, and
every live element afterwards is the inserted one or was live before. -/
theorem add_room (s s1 : arraylist_t) (e : Ptr) (i : Nat) (hroom : has_room s)
    (h : (arraylist_add_at_index s e i).returned = some s1) :
    e ≠ 0 ∧ has_room s1 ∧ ∀ y ∈ live s1, y = e ∨ y ∈ live s := by
  obtain ⟨r, hr⟩ := returned_eq_some h
  obtain ⟨buf, hbuf, hlen⟩ := has_room_elim hroom
  obtain ⟨he, hidx, hne, _⟩ := add_at_index_inv hr
  have hlt : s.size < buf.length := by
    by_contra hge
    have hg : ¬ (i < 0 ∨ i > s.size) := by omega
    by_cases hk : s.size - i = 0
    · have hst : store buf i e = none := by
        unfold store
        rw [if_neg (by omega)]
      simp only [arraylist_add_at_index, he, hg, hne, hbuf, hk, add_shift, hst, if_false] at hr
      cases hr
    · have hsh := add_shift_none i (s.size - i) buf (by omega) (by omega)
      simp only [arraylist_add_at_index, he, hg, hne, hbuf, hsh, if_false] at hr
      cases hr
  obtain ⟨buf2, hr2, hl2, hj2⟩ := add_at_index_ok_room s buf e i hbuf hlt hne hidx he
  rw [hr] at hr2
  injection hr2 with _ hs
  subst hs
  have hu := u64_le (s.size + 1)
  refine ⟨he, has_room_intro _ buf2 rfl ?_, fun y hy => ?_⟩
  · show u64 (s.size + 1) ≤ buf2.length
    omega
  · have hy1 : y ∈ buf2.take (u64 (s.size + 1)) := hy
    have hy2 := mem_take_of_le buf2 _ (s.size + 1) y hu hy1
    rw [take_insert buf buf2 s.size i e hlt hl2 hidx hj2] at hy2
    rcases mem_take_cons_drop _ i e y hy2 with h1 | h1
    · exact Or.inl h1
    · exact Or.inr (by simpa only [live, hbuf] using h1)

/-- A successful removal: the returned element was live, the struct keeps room,
and every live element afterwards was live before. -/
theorem remove_room (s s1 : arraylist_t) (i : Nat) (x : Ptr) (hroom : has_room s)
    (hr : arraylist_remove_at_index s i = Outcome.ok x s1) :
    x ∈ live s ∧ has_room s1 ∧ ∀ y ∈ live s1, y ∈ live s := by
  obtain ⟨buf, hbuf, hlen⟩ := has_room_elim hroom
  obtain ⟨hidx, _⟩ := remove_at_index_inv hr
  obtain ⟨x2, buf2, hx2, hr2, hl2, hj2⟩ := remove_at_index_ok s buf i hbuf hlen hidx
  rw [hr] at hr2
  injection hr2 with hx hs
  subst hx
  subst hs
  refine ⟨?_, has_room_intro _ buf2 rfl ?_, fun y hy => ?_⟩
  · apply List.getElem?_mem
    show (live s)[i]? = some x
    simp only [live, hbuf, List.getElem?_take, if_pos hidx, hx2]
  · show s.size - 1 ≤ buf2.length
    omega
  · have hy1 : y ∈ buf2.take (s.size - 1) := hy
    rw [take_erase buf buf2 s.size i hidx hj2] at hy1
    have := List.mem_of_mem_eraseIdx hy1
    simpa only [live, hbuf] using this

/-- A successful move: the struct keeps room and every live element afterwards
was live before. -/
theorem move_room (s s1 : arraylist_t) (cur new : Nat) (hroom : has_room s)
    (h : (arraylist_move_to_index s cur new).returned = some s1) :
    has_room s1 ∧ ∀ y ∈ live s1, y ∈ live s := by
  by_cases hg : cur < 0 ∨ new < 0 ∨ cur ≥ s.size ∨ new ≥ s.size
  · simp only [arraylist_move_to_index, hg, if_true] at h
    cases h
  · by_cases hne : cur = new
    · subst hne
      simp only [arraylist_move_to_index, hg, if_true, if_false] at h
      injection h with hs
      subst hs
      exact ⟨hroom, fun y hy => hy⟩
    · simp only [arraylist_move_to_index, hg, hne, if_false] at h
      cases hrem : arraylist_remove_at_index s cur with
      | ok x s2 =>
        rw [hrem] at h
        simp only at h
        obtain ⟨hx, hroom2, hl2⟩ := remove_room s s2 cur x hroom hrem
        obtain ⟨_, hroom1, hl1⟩ := add_room s2 s1 x new hroom2 h
        refine ⟨hroom1, fun y hy => ?_⟩
        rcases hl1 y hy with h1 | h1
        · rw [h1]
          exact hx
        · exact hl2 y h1
      | exit s2 =>
        rw [hrem] at h
        cases h
      | ub =>
        rw [hrem] at h
        cases h

/-- A successful swap: the struct keeps room and every live element afterwards
was live before. -/
theorem swap_room (s s1 : arraylist_t) (i j : Nat) (hroom : has_room s)
    (h : (arraylist_swap s i j).returned = some s1) :
    has_room s1 ∧ ∀ y ∈ live s1, y ∈ live s := by
  obtain ⟨r, hr⟩ := returned_eq_some h
  obtain ⟨buf, hbuf, hlen⟩ := has_room_elim hroom
  by_cases hg : i < 0 ∨ j < 0 ∨ i ≥ s.size ∨ j ≥ s.size
  · simp only [arraylist_swap, hg, if_true] at hr
    cases hr
  · by_cases hne : i = j
    · subst hne
      simp only [arraylist_swap, hg, if_true, if_false] at hr
      injection hr with _ hs
      subst hs
      exact ⟨hroom, fun y hy => hy⟩
    · have hi1 : i < buf.length := by omega
      have hj1 : j < buf.length := by omega
      obtain ⟨a, b, ha, hb, hsw⟩ := swap_ok s buf i j hbuf hlen (by omega) (by omega) hne
      rw [hr] at hsw
      injection hsw with _ hs
      subst hs
      refine ⟨has_room_intro _ _ rfl ?_, fun y hy => ?_⟩
      · show s.size ≤ ((buf.set i b).set j a).length
        simp only [List.length_set]
        exact hlen
      · have hy1 : y ∈ ((buf.set i b).set j a).take s.size := hy
        obtain ⟨n, hn⟩ := List.getElem?_of_mem hy1
        rw [List.getElem?_take] at hn
        have hmem : ∀ k, k < s.size → ∀ z, buf[k]? = some z → z ∈ live s := by
          intro k hk z hz
          apply List.getElem?_mem
          show (live s)[k]? = some z
          simp only [live, hbuf, List.getElem?_take, if_pos hk, hz]
        by_cases hns : n < s.size
        · rw [if_pos hns, swap_buf_get buf i j a b hi1 hj1 n] at hn
          by_cases c1 : n = j
          · rw [if_pos c1] at hn
            cases hn
            exact hmem i (by omega) _ ha
          · rw [if_neg c1] at hn
            by_cases c2 : n = i
            · rw [if_pos c2] at hn
              cases hn
              exact hmem j (by omega) _ hb
            · rw [if_neg c2] at hn
              exact hmem n hns _ hn
        · rw [if_neg hns] at hn
          cases hn

/-- A successful resize whose byte count pays for `newsize` slots: the struct
keeps room and the live elements are the same. -/
theorem resize_room (heap_ok : Bool) (junk : Nat → Ptr) (s s1 : arraylist_t)
    (newsize : Nat) (hroom : has_room s)
    (hfit : newsize * sizeof_ptr ≤ u64 (newsize * s.element_size))
    (h : (arraylist_resize heap_ok junk s newsize).returned = some s1) :
    has_room s1 ∧ live s1 = live s := by
  obtain ⟨r, hr⟩ := returned_eq_some h
  obtain ⟨buf, hbuf, hlen⟩ := has_room_elim hroom
  have hge : s.size ≤ newsize := by
    by_contra hlt
    simp only [arraylist_resize, hbuf, if_pos (Nat.lt_of_not_le hlt)] at hr
    cases hr
  have hheap : heap_ok = true := by
    cases heap_ok with
    | true => rfl
    | false =>
      simp only [arraylist_resize, hbuf, if_neg (Nat.not_lt.mpr hge), realloc] at hr
      cases hr
  obtain ⟨buf1, hr1, hl1, hj1⟩ := resize_ok heap_ok junk s buf newsize hbuf hge hheap
  rw [hr] at hr1
  injection hr1 with _ hs
  subst hs
  have hslots : newsize ≤ u64 (newsize * s.element_size) / sizeof_ptr := by
    unfold sizeof_ptr at hfit ⊢
    omega
  refine ⟨has_room_intro _ buf1 rfl ?_, ?_⟩
  · show s.size ≤ buf1.length
    omega
  · show buf1.take s.size = live s
    simp only [live, hbuf]
    apply List.ext_getElem?
    intro n
    simp only [List.getElem?_take]
    by_cases c : n < s.size
    · rw [if_pos c, if_pos c, hj1 n (by omega) (by omega)]
    · rw [if_neg c, if_neg c]

/-- One successful call on a struct with room leaves a struct with room, and
every live element afterwards was live before or is the non-null element the
call inserted. -/
theorem run_room (op : Op) (s s1 : arraylist_t) (hroom : has_room s)
    (hfit : op.fits s) (h : op.run s = some s1) :
    has_room s1 ∧ ∀ y ∈ live s1, y ∈ live s ∨ (y ∈ op.inserted ∧ y ≠ 0) := by
  have hadd : ∀ (e : Ptr) (i : Nat), (arraylist_add_at_index s e i).returned = some s1 →
      has_room s1 ∧ ∀ y ∈ live s1, y ∈ live s ∨ (y ∈ [e] ∧ y ≠ 0) := by
    intro e i h
    obtain ⟨he, hroom1, hl⟩ := add_room s s1 e i hroom h
    refine ⟨hroom1, fun y hy => ?_⟩
    rcases hl y hy with h1 | h1
    · exact Or.inr ⟨by rw [h1]; exact List.mem_singleton_self e, by rw [h1]; exact he⟩
    · exact Or.inl h1
  have hrem : ∀ (i : Nat), (arraylist_remove_at_index s i).returned = some s1 →
      has_room s1 ∧ ∀ y ∈ live s1, y ∈ live s ∨ (y ∈ ([] : List Ptr) ∧ y ≠ 0) := by
    intro i h
    obtain ⟨x, hr⟩ := returned_eq_some h
    obtain ⟨_, hroom1, hl⟩ := remove_room s s1 i x hroom hr
    exact ⟨hroom1, fun y hy => Or.inl (hl y hy)⟩
  have hsame : s1 = s → has_room s1 ∧
      ∀ y ∈ live s1, y ∈ live s ∨ (y ∈ ([] : List Ptr) ∧ y ≠ 0) := by
    intro hs
    subst hs
    exact ⟨hroom, fun y hy => Or.inl hy⟩
  cases op with
  | resize heap_ok junk newsize =>
    obtain ⟨hroom1, hl⟩ := resize_room heap_ok junk s s1 newsize hroom hfit h
    exact ⟨hroom1, fun y hy => Or.inl (by rw [← hl]; exact hy)⟩
  | add_at_index e i => exact hadd e i h
  | remove_at_index i => exact hrem i h
  | enqueue e => exact hadd e _ h
  | enqueue_front e => exact hadd e _ h
  | dequeue => exact hrem _ h
  | dequeue_back => exact hrem _ h
  | move_to_index cur new =>
    obtain ⟨hroom1, hl⟩ := move_room s s1 cur new hroom h
    exact ⟨hroom1, fun y hy => Or.inl (hl y hy)⟩
  | swap i j =>
    obtain ⟨hroom1, hl⟩ := swap_room s s1 i j hroom h
    exact ⟨hroom1, fun y hy => Or.inl (hl y hy)⟩
  | is_full =>
    apply hsame
    injection h with h
    exact h.symm
  | is_empty =>
    apply hsame
    injection h with h
    exact h.symm
  | contains e => exact hsame (contains_returned s s1 e h)

/-- Every reached struct has room, and its live elements are non-null and were
passed to an insertion. -/
theorem reached_room (bound : Nat) (ins : List Ptr) (s : arraylist_t)
    (h : Reached bound ins s) :
    has_room s ∧ ∀ x ∈ live s, x ≠ 0 ∧ x ∈ ins := by
  induction h with
  | init heap_ok junk s0 s capacity element_size hcap _ hes hinit =>
    obtain ⟨buf, hs⟩ := init_ok_inv hcap hes hinit
    have hb : s.elements = some buf := by rw [hs]
    have hz : s.size = 0 := by rw [hs]
    refine ⟨has_room_intro s buf hb (by omega), fun x hx => ?_⟩
    have hl : live s = [] := by
      simp only [live, hb, hz, List.take_zero]
    rw [hl] at hx
    cases hx
  | step ins s s1 op _ hfit hrun ih =>
    obtain ⟨hroom, hlive⟩ := ih
    obtain ⟨hroom1, hl1⟩ := run_room op s s1 hroom hfit hrun
    refine ⟨hroom1, fun y hy => ?_⟩
    rcases hl1 y hy with h1 | ⟨h1, h2⟩
    · exact ⟨(hlive y h1).1, List.mem_append_right _ (hlive y h1).2⟩
    · exact ⟨h2, List.mem_append_left _ h1⟩

/-! ### Atomicity of the mutating calls -/

/-- One successful call keeps the invariants of the data model. -/
theorem invariants_of_run (op : Op) (s s1 : arraylist_t) (hinv : invariants s)
    (hfit : op.fits s) (hrun : op.run s = some s1) : invariants s1 := by
  obtain ⟨hwf1, hl1⟩ := run_live op s s1 hinv.1 hinv.2 hfit hrun
  refine ⟨hwf1, fun y hy => ?_⟩
  rcases hl1 y hy with h1 | ⟨_, h2⟩
  · exact hinv.2 y h1
  · exact h2

/-- A call that returns normally or ends in `exit(1)` on the untouched struct
is atomic, the invariants being kept by every successful call. -/
theorem atomic_of_ok_or_exit {α : Type} (s : arraylist_t) (o : Outcome α) (op : Op)
    (hinv : invariants s) (hfit : op.fits s) (hop : op.run s = o.returned)
    (h : (∃ r s1, o = Outcome.ok r s1) ∨ o = Outcome.exit s) : atomic s o := by
  rcases h with ⟨r, s1, ho⟩ | h
  · refine Or.inl ⟨r, s1, ho, invariants_of_run op s s1 hinv hfit ?_⟩
    rw [hop, ho]
    rfl
  · exact Or.inr h

/-- On a sequence an insertion returns normally or ends in `exit(1)` on the
untouched struct. -/
theorem add_ok_or_exit (s : arraylist_t) (e : Ptr) (i : Nat) (hwf : well_formed s) :
    (∃ r s1, arraylist_add_at_index s e i = Outcome.ok r s1) ∨
      arraylist_add_at_index s e i = Outcome.exit s := by
  obtain ⟨_, hle, _⟩ := well_formed_elim hwf
  by_cases h1 : e = 0
  · right
    unfold arraylist_add_at_index
    rw [if_pos h1]
  · by_cases h2 : i < 0 ∨ i > s.size
    · right
      unfold arraylist_add_at_index
      rw [if_neg h1, if_pos h2]
    · by_cases h3 : s.size = s.capacity
      · right
        unfold arraylist_add_at_index
        rw [if_neg h1, if_neg h2, if_pos h3]
      · left
        obtain ⟨s1, h, _⟩ := add_at_index_live s e i hwf (by omega) (by omega) h1
        exact ⟨(), s1, h⟩

/-- On a sequence a removal returns normally or ends in `exit(1)` on the
untouched struct. -/
theorem remove_ok_or_exit (s : arraylist_t) (i : Nat) (hwf : well_formed s) :
    (∃ r s1, arraylist_remove_at_index s i = Outcome.ok r s1) ∨
      arraylist_remove_at_index s i = Outcome.exit s := by
  by_cases h1 : i < s.size
  · left
    obtain ⟨x, s1, _, h, _⟩ := remove_at_index_live s i hwf h1
    exact ⟨x, s1, h⟩
  · right
    have hg : i < 0 ∨ i ≥ s.size := by omega
    simp only [arraylist_remove_at_index, hg, if_true]

/-- On a sequence with non-null live elements a move returns normally or ends
in `exit(1)` on the untouched struct. -/
theorem move_ok_or_exit (s : arraylist_t) (cur new : Nat) (hinv : invariants s) :
    (∃ r s1, arraylist_move_to_index s cur new = Outcome.ok r s1) ∨
      arraylist_move_to_index s cur new = Outcome.exit s := by
  by_cases hg : cur < 0 ∨ new < 0 ∨ cur ≥ s.size ∨ new ≥ s.size
  · right
    simp only [arraylist_move_to_index, hg, if_true]
  · left
    by_cases hne : cur = new
    · subst hne
      exact ⟨(), s, by simp only [arraylist_move_to_index, hg, if_true, if_false]⟩
    · obtain ⟨_, _, s2, _, _, _, hm, _⟩ :=
        move_to_index_live s cur new hinv.1 hinv.2 (by omega) (by omega) hne
      exact ⟨(), s2, hm⟩

/-- On a sequence a swap returns normally or ends in `exit(1)` on the untouched
struct. -/
theorem swap_ok_or_exit (s : arraylist_t) (i j : Nat) (hwf : well_formed s) :
    (∃ r s1, arraylist_swap s i j = Outcome.ok r s1) ∨
      arraylist_swap s i j = Outcome.exit s := by
  obtain ⟨_, hle, buf, hbuf, hlen⟩ := well_formed_elim hwf
  by_cases hg : i < 0 ∨ j < 0 ∨ i ≥ s.size ∨ j ≥ s.size
  · right
    simp only [arraylist_swap, hg, if_true]
  · left
    by_cases hne : i = j
    · subst hne
      exact ⟨(), s, by simp only [arraylist_swap, hg, if_true, if_false]⟩
    · obtain ⟨_, _, _, _, h⟩ := swap_ok s buf i j hbuf (by omega) (by omega) (by omega) hne
      exact ⟨(), _, h⟩

/-- On a sequence a resize with a succeeding allocator returns normally or ends
in `exit(1)` on the untouched struct. -/
theorem resize_ok_or_exit (junk : Nat → Ptr) (s : arraylist_t) (newsize : Nat)
    (hwf : well_formed s) :
    (∃ r s1, arraylist_resize true junk s newsize = Outcome.ok r s1) ∨
      arraylist_resize true junk s newsize = Outcome.exit s := by
  obtain ⟨_, _, buf, hbuf, _⟩ := well_formed_elim hwf
  by_cases hlt : newsize < s.size
  · right
    simp only [arraylist_resize, hbuf, hlt, if_true]
  · left
    obtain ⟨buf1, h, _⟩ := resize_ok true junk s buf newsize hbuf (by omega) rfl
    exact ⟨(), _, h⟩

/-- Claim C16, as amended (atomicity of the mutating calls): every struct
reached from `arraylist_init` with a positive capacity below `2 ^ 61` and a
positive element width by successful calls in which every resize fits satisfies
the invariants, and on it each call of insert, remove, the four queue
operations, move and swap, and each resize that fits with a succeeding
allocator, either returns normally and leaves a struct that satisfies the
invariants, or ends in `exit(1)` with `size`, `capacity` and every slot as they
were; a resize below `size` ends in `exit(1)` on the untouched struct whatever
the allocator; and once the removal inside a move has returned, the
insertion that follows returns normally. -/
theorem C16_mutating_calls_are_atomic (ins : List Ptr) (s : arraylist_t)
    (h : Reached (2 ^ 61) ins s) :
    invariants s ∧
    (∀ e i, atomic s (arraylist_add_at_index s e i)) ∧
    (∀ i, atomic s (arraylist_remove_at_index s i)) ∧
    (∀ e, atomic s (arraylist_enqueue s e)) ∧
    (∀ e, atomic s (arraylist_enqueue_front s e)) ∧
    atomic s (arraylist_dequeue s) ∧
    atomic s (arraylist_dequeue_back s) ∧
    (∀ cur new, atomic s (arraylist_move_to_index s cur new)) ∧
    (∀ i j, atomic s (arraylist_swap s i j)) ∧
    (∀ junk newsize, newsize * sizeof_ptr ≤ u64 (newsize * s.element_size) →
      atomic s (arraylist_resize true junk s newsize)) ∧
    (∀ heap_ok junk newsize, newsize < s.size →
      arraylist_resize heap_ok junk s newsize = Outcome.exit s) ∧
    (∀ cur new x s1, arraylist_remove_at_index s cur = Outcome.ok x s1 →
      new < s.size → cur ≠ new →
      ∃ s2, arraylist_add_at_index s1 x new = Outcome.ok () s2 ∧
        arraylist_move_to_index s cur new = Outcome.ok () s2) := by
  have hinv : invariants s := by
    obtain ⟨hwf, hl⟩ := reached_live ins s h
    exact ⟨hwf, fun x hx => (hl x hx).1⟩
  have hwf := hinv.1
  refine ⟨hinv, ?_, ?_, ?_, ?_, ?_, ?_, ?_, ?_, ?_, ?_, ?_⟩
  · intro e i
    exact atomic_of_ok_or_exit s _ (Op.add_at_index e i) hinv trivial rfl
      (add_ok_or_exit s e i hwf)
  · intro i
    exact atomic_of_ok_or_exit s _ (Op.remove_at_index i) hinv trivial rfl
      (remove_ok_or_exit s i hwf)
  · intro e
    exact atomic_of_ok_or_exit s _ (Op.enqueue e) hinv trivial rfl
      (add_ok_or_exit s e _ hwf)
  · intro e
    exact atomic_of_ok_or_exit s _ (Op.enqueue_front e) hinv trivial rfl
      (add_ok_or_exit s e _ hwf)
  · exact atomic_of_ok_or_exit s _ Op.dequeue hinv trivial rfl (remove_ok_or_exit s _ hwf)
  · exact atomic_of_ok_or_exit s _ Op.dequeue_back hinv trivial rfl
      (remove_ok_or_exit s _ hwf)
  · intro cur new
    exact atomic_of_ok_or_exit s _ (Op.move_to_index cur new) hinv trivial rfl
      (move_ok_or_exit s cur new hinv)
  · intro i j
    exact atomic_of_ok_or_exit s _ (Op.swap i j) hinv trivial rfl (swap_ok_or_exit s i j hwf)
  · intro junk newsize hfit
    exact atomic_of_ok_or_exit s _ (Op.resize true junk newsize) hinv hfit rfl
      (resize_ok_or_exit junk s newsize hwf)
  · intro heap_ok junk newsize hlt
    unfold arraylist_resize
    split
    · rfl
    · rw [if_pos hlt]
  · intro cur new x s1 hrem hnew hne
    obtain ⟨hcur, _⟩ := remove_at_index_inv hrem
    obtain ⟨x2, s2, s3, _, hrem2, hadd, hm, _⟩ :=
      move_to_index_live s cur new hwf hinv.2 hcur hnew hne
    rw [hrem] at hrem2
    injection hrem2 with hx hs
    subst hx
    subst hs
    exact ⟨s3, hadd, hm⟩

theorem C16_witness :
    Reached (2 ^ 61) [5] c4_after ∧
    atomic c4_after (arraylist_enqueue c4_after 6) ∧
    atomic c4_after (arraylist_move_to_index c4_after 0 1) ∧
    arraylist_move_to_index c4_after 0 1 = Outcome.exit c4_after :=
  ⟨Reached.step [] c4_init c4_after (Op.enqueue 5)
      (Reached.init true (fun _ => 0) fresh_struct c4_init 2 8 (by decide) (by decide)
        (by decide) rfl) trivial rfl,
    (C16_mutating_calls_are_atomic [5] c4_after
      (Reached.step [] c4_init c4_after (Op.enqueue 5)
        (Reached.init true (fun _ => 0) fresh_struct c4_init 2 8 (by decide) (by decide)
          (by decide) rfl) trivial rfl)).2.2.2.1 6,
    (C16_mutating_calls_are_atomic [5] c4_after
      (Reached.step [] c4_init c4_after (Op.enqueue 5)
        (Reached.init true (fun _ => 0) fresh_struct c4_init 2 8 (by decide) (by decide)
          (by decide) rfl) trivial rfl)).2.2.2.2.2.2.2.1 0 1,
    by decide⟩

/-- Claim C16 as stated fails.  `arraylist_init` with capacity 0 returns
normally without touching the struct, and on the struct so obtained (no buffer,
leftover `size = 7`) `arraylist_swap` of positions 0 and 1 neither returns
normally nor ends in `exit(1)`: it reads through the `NULL` buffer.  And
`arraylist_init` with capacity `2 ^ 61 + 1` asks `malloc` for 8 bytes, so after
one successful `arraylist_enqueue` the next one writes outside the block. -/
theorem C16_counterexample :
    arraylist_init true (fun _ => 0) fresh_struct 0 8 = Outcome.ok () fresh_struct ∧
    arraylist_swap fresh_struct 0 1 = Outcome.ub ∧
    ¬ atomic fresh_struct (arraylist_swap fresh_struct 0 1) ∧
    arraylist_init true (fun _ => 0) fresh_struct (2 ^ 61 + 1) 8 = Outcome.ok () big_state ∧
    arraylist_enqueue big_state 5 = Outcome.ok () big_state1 ∧
    arraylist_enqueue big_state1 6 = Outcome.ub ∧
    ¬ atomic big_state1 (arraylist_enqueue big_state1 6) := by
  have h1 : arraylist_swap fresh_struct 0 1 = Outcome.ub := by decide
  have h2 : arraylist_enqueue big_state1 6 = Outcome.ub := by decide
  refine ⟨by decide, h1, ?_, by decide, by decide, h2, ?_⟩
  · rw [h1]
    rintro (⟨r, s1, h, _⟩ | h) <;> cases h
  · rw [h2]
    rintro (⟨r, s1, h, _⟩ | h) <;> cases h

/-! ### The live slots -/

/-- Claim C18, as amended (live-slot invariant): in every struct reached from
`arraylist_init` with a positive capacity and a positive element width by
successful calls in which every resize fits, every slot at an index below
`size` holds a non-null element reference that was passed to an insertion
before; and a further successful call (insert, remove, the queue operations,
move, swap, or a resize that fits) leaves a struct with the same property. -/
theorem C18_live_slots_hold_inserted_elements (bound : Nat) (ins : List Ptr)
    (s : arraylist_t) (h : Reached bound ins s) :
    (∀ j, j < s.size → ∃ x, slot s j = some x ∧ x ≠ 0 ∧ x ∈ ins) ∧
    (∀ (op : Op) (s1 : arraylist_t), op.fits s → op.run s = some s1 →
      ∀ j, j < s1.size → ∃ x, slot s1 j = some x ∧ x ≠ 0 ∧ x ∈ op.inserted ++ ins) := by
  have key : ∀ (l : List Ptr) (t : arraylist_t), Reached bound l t →
      ∀ j, j < t.size → ∃ x, slot t j = some x ∧ x ≠ 0 ∧ x ∈ l := by
    intro l t ht j hj
    obtain ⟨hroom, hl⟩ := reached_room bound l t ht
    obtain ⟨buf, hbuf, hlen⟩ := has_room_elim hroom
    have hjb : j < buf.length := by omega
    have hget : (live t)[j]? = some buf[j] := by
      simp only [live, hbuf, List.getElem?_take, if_pos hj, List.getElem?_eq_getElem hjb]
    refine ⟨buf[j], ?_, hl _ (List.getElem?_mem hget)⟩
    rw [slot_eq_live t j hj, hget]
  exact ⟨key ins s h, fun op s1 hfit hrun =>
    key _ s1 (Reached.step ins s s1 op h hfit hrun)⟩

theorem C18_witness :
    Reached (2 ^ 64) [5] c4_after ∧
    (∀ j, j < c4_after.size → ∃ x, slot c4_after j = some x ∧ x ≠ 0 ∧ x ∈ [5]) :=
  ⟨Reached.step [] c4_init c4_after (Op.enqueue 5)
      (Reached.init true (fun _ => 0) fresh_struct c4_init 2 8 (by decide) (by decide)
        (by decide) rfl) trivial rfl,
    (C18_live_slots_hold_inserted_elements (2 ^ 64) [5] c4_after
      (Reached.step [] c4_init c4_after (Op.enqueue 5)
        (Reached.init true (fun _ => 0) fresh_struct c4_init 2 8 (by decide) (by decide)
          (by decide) rfl) trivial rfl)).1⟩

/-- Claim C18 as stated fails: `arraylist_init` with capacity 0 returns normally
without touching the struct, so the struct a caller then holds keeps its
leftover `size = 7` and has no buffer: slot 0, below `size`, holds no element
reference. -/
theorem C18_counterexample :
    arraylist_init true (fun _ => 0) fresh_struct 0 8 = Outcome.ok () fresh_struct ∧
    Op.run Op.is_full fresh_struct = some fresh_struct ∧
    0 < fresh_struct.size ∧
    ¬ (∃ x, slot fresh_struct 0 = some x ∧ x ≠ 0) := by
  refine ⟨by decide, by decide, by decide, ?_⟩
  rintro ⟨x, h, _⟩
  cases h

end ArrayList
